import Mathlib

/-!
Shallow embedding of the B+ tree key-value store from `src/bplus_tree.rs`.

The Rust code is concurrent (per-node reader/writer latches, a tree-level
latch, an async runtime); latches only serialize access, so the sequential
semantics modelled here is the effect of each operation on the shared state.
`Arc` allocations of leaf nodes are modelled by numbering leaves with a
fresh-id counter, so the leaf sibling links (`next: Option<Link<K>>`) become
`Option Nat` holding the id of the linked leaf.  Byte vectors `Vec<u8>` are
modelled as `List Nat`; file contents of the numbered segment files are a
total function `Nat → List Nat` (a file that was never created is the empty
content).  Rust functions that can panic (`unwrap`, `unimplemented!`,
indexing out of bounds) are modelled with `Option`, `none` standing for the
panic, except where a case is unreachable for the well-formed trees the
operations actually build; those junk branches are marked in comments.
`binary_search` on a vector is modelled by the equivalent linear scan over
the sorted vector (all vectors searched by the code are sorted).
-/

namespace BPlusVerify

/-- Bytes of a chunk (`Vec<u8>`); each element stands for one byte. -/
abbrev Bytes := List Nat

/-- Mirrors `struct ChunkHandler { path, offset, size }`.  The path is always
`self.path.join(file_number.to_string())`, so it is modelled by the segment
number alone. -/
structure ChunkHandler where
  segment : Nat
  offset : Nat
  size : Nat
deriving DecidableEq, Repr

/-- State of the chunk data store held inside `BPlus`: the contents of the
segment files in the data directory plus the fields `file_number`, `offset`
and `max_file_size`. -/
structure ChunkStore where
  segments : Nat → Bytes
  fileNumber : Nat
  offset : Nat
  maxFileSize : Nat

/-- Functional update of one segment file (`File::create` + later writes). -/
def setSeg (f : Nat → Bytes) (i : Nat) (v : Bytes) : Nat → Bytes :=
  fun j => if j = i then v else f j

/-- Positional write `file.write_at(&value, offset)` on Unix: bytes before
`off` are kept, a gap beyond end-of-file reads back as zeros, the value
overwrites `value.length` bytes at `off`, bytes after are kept. -/
def writeAt (content : Bytes) (off : Nat) (value : Bytes) : Bytes :=
  content.take off ++ List.replicate (off - content.length) 0 ++ value
    ++ content.drop (off + value.length)

/-- Positional read `file.read_exact_at(&mut buf, offset)` with a buffer of
`size` bytes: fails iff the file is shorter than `offset + size`. -/
def readExactAt (content : Bytes) (off size : Nat) : Option Bytes :=
  if off + size ≤ content.length then some ((content.drop off).take size) else none

/-- Mirrors `BPlus::get_chunk_handler`: if the cursor is at or beyond
`max_file_size` *before* the write, increment the segment number, create the
fresh segment file (truncating), reset the cursor; then write the value at
the cursor, hand out a handle with the pre-write offset, and advance the
cursor by the value length. -/
def getChunkHandler (st : ChunkStore) (value : Bytes) : ChunkHandler × ChunkStore :=
  let st1 :=
    if st.maxFileSize ≤ st.offset then
      { st with fileNumber := st.fileNumber + 1, offset := 0,
                segments := setSeg st.segments (st.fileNumber + 1) [] }
    else st
  let handler : ChunkHandler := ⟨st1.fileNumber, st1.offset, value.length⟩
  (handler,
   { st1 with
      segments := setSeg st1.segments st1.fileNumber
        (writeAt (st1.segments st1.fileNumber) st1.offset value),
      offset := st1.offset + value.length })

/-- Mirrors `ChunkHandler::read`: open the segment file and read exactly
`size` bytes at `offset`; `none` is the propagated I/O error. -/
def ChunkHandler.read (h : ChunkHandler) (segments : Nat → Bytes) : Option Bytes :=
  readExactAt (segments h.segment) h.offset h.size

/-- Mirrors `enum Node`: an internal node carries keys and children, a leaf
carries sorted `(key, ChunkHandler)` entries and the optional link to the
next leaf.  `id` models the identity of the `Arc` wrapping the leaf, and
`next` holds the id of the linked leaf. -/
inductive Node (K : Type) where
  | leaf (id : Nat) (entries : List (K × ChunkHandler)) (next : Option Nat)
  | internal (keys : List K) (children : List (Node K))

/-- Junk node used for indexing defaults in statements (never reachable). -/
def junkNode (K : Type) : Node K := .leaf 0 [] none

variable {K : Type}

/-- Routing at an internal node: `keys.binary_search(&key)` mapped through
`Ok(pos) => pos + 1, Err(pos) => pos`.  On the sorted separator list this is
the count of separators `≤ key`: equal keys route right. -/
def routeIdx [LinearOrder K] : List K → K → Nat
  | [], _ => 0
  | k :: ks, key => if key < k then 0 else routeIdx ks key + 1

/-- Leaf update of the pessimistic insert path:
`entries.binary_search_by(..)` followed by
`Ok(pos) => entries[pos] = (key, value)` (overwrite in place) or
`Err(pos) => entries.insert(pos, (key, value))` (insert at the sorted
position), as the equivalent scan of the sorted entry list. -/
def insertEntry [LinearOrder K] :
    List (K × ChunkHandler) → K → ChunkHandler → List (K × ChunkHandler)
  | [], key, v => [(key, v)]
  | (k, w) :: rest, key, v =>
    if key < k then (key, v) :: (k, w) :: rest
    else if key = k then (key, v) :: rest
    else (k, w) :: insertEntry rest key v

/-- Leaf update of the optimistic insert path, which on a hit assigns only
the value (`entries[pos].1 = value`), keeping the stored key. -/
def optInsertEntry [LinearOrder K] :
    List (K × ChunkHandler) → K → ChunkHandler → List (K × ChunkHandler)
  | [], key, v => [(key, v)]
  | (k, w) :: rest, key, v =>
    if key < k then (key, v) :: (k, w) :: rest
    else if key = k then (k, v) :: rest
    else (k, w) :: optInsertEntry rest key v

/-- Leaf lookup of `BPlus::get`: `entries.binary_search_by(..)` on the sorted
entry list, as the equivalent scan; `none` is the `Err(_)` miss. -/
def findEntry [LinearOrder K] : List (K × ChunkHandler) → K → Option ChunkHandler
  | [], _ => none
  | (k, w) :: rest, key =>
    if key < k then none
    else if key = k then some w
    else findEntry rest key

mutual

/-- Descent of `BPlus::get` (latching elided): route through internal nodes,
search the reached leaf.  `none` is the `NotFound` error. -/
def getHandle [LinearOrder K] : Node K → K → Option ChunkHandler
  | .leaf _ es _, key => findEntry es key
  | .internal ks cs, key => getHandleAt cs (routeIdx ks key) key

/-- Mirrors `internal.children.get(pos)`: a missing child
(`None => return Err(NotFound)`) answers the whole get with `none`. -/
def getHandleAt [LinearOrder K] : List (Node K) → Nat → K → Option ChunkHandler
  | [], _, _ => none
  | c :: _, 0, key => getHandle c key
  | _ :: cs, n + 1, key => getHandleAt cs n key

end

/-- Mirrors `Node::split(&mut self, t)`.  The result is
(the node after its in-place mutation, the new right sibling, the median
key); `freshId` is the identity of the `Arc` allocated for a new right leaf.
On an empty right half the source would panic indexing `[0]`; that branch
returns `default` junk and is unreachable (split is called on overfull nodes
only). -/
def Node.split [Inhabited K] : Node K → Nat → Nat → Node K × Node K × K
  | .leaf id es nx, t, freshId =>
    let newLeafEntries := es.drop t
    let middleKey := (newLeafEntries.headD (default, ⟨0, 0, 0⟩)).1
    (.leaf id (es.take t) (some freshId), .leaf freshId newLeafEntries nx, middleKey)
  | .internal ks cs, t, _ =>
    let rightKeys := ks.drop (t - 1)
    let middleKey := rightKeys.headD default
    (.internal (ks.take (t - 1)) (cs.take t),
     .internal rightKeys.tail (cs.drop t), middleKey)

mutual

/-- Sequential effect of the pessimistic latch-crabbing insert
(`BPlus::insert` below the root handling): descend by routing, update the
reached leaf, split a leaf that reaches `2·t` entries, and propagate
`(new right node, median)` upwards, splitting each internal node that
reaches `2·t − 1` keys.  Returns the rebuilt node, the optional carried
`(right sibling, median)`, and the updated fresh-id counter. -/
def insertAux [LinearOrder K] [Inhabited K] (t : Nat) :
    Node K → K → ChunkHandler → Nat → Node K × Option (Node K × K) × Nat
  | .leaf id es nx, key, v, ctr =>
    let es1 := insertEntry es key v
    if es1.length = 2 * t then
      let s := Node.split (.leaf id es1 nx) t ctr
      (s.1, some s.2, ctr + 1)
    else
      (.leaf id es1 nx, none, ctr)
  | .internal ks cs, key, v, ctr =>
    let pos := routeIdx ks key
    let r := insertChild t cs pos key v ctr
    match r.2.1 with
    | none => (.internal ks r.1, none, r.2.2)
    | some (newNode, median) =>
      let ks1 := ks.insertIdx pos median
      let cs2 := r.1.insertIdx (pos + 1) newNode
      if ks1.length = 2 * t - 1 then
        let s := Node.split (.internal ks1 cs2) t r.2.2
        (s.1, some s.2, r.2.2)
      else
        (.internal ks1 cs2, none, r.2.2)

/-- Recursion of `insertAux` into the child selected by the recorded routing
position (`internal.children[pos]`).  The `[]` case would be an
out-of-bounds panic in the source and is unreachable on well-formed trees. -/
def insertChild [LinearOrder K] [Inhabited K] (t : Nat) :
    List (Node K) → Nat → K → ChunkHandler → Nat →
      List (Node K) × Option (Node K × K) × Nat
  | [], _, _, _, ctr => ([], none, ctr)
  | c :: cs, 0, key, v, ctr =>
    let r := insertAux t c key v ctr
    (r.1 :: cs, r.2.1, r.2.2)
  | c :: cs, n + 1, key, v, ctr =>
    let r := insertChild t cs n key v ctr
    (c :: r.1, r.2.1, r.2.2)

end

/-- Root handling of `BPlus::insert`: if a split is still carried after the
upward phase, grow a new internal root whose children are the old root and
the new right sibling and whose single key is the median. -/
def treeInsert [LinearOrder K] [Inhabited K] (t : Nat) (root : Node K) (key : K)
    (v : ChunkHandler) (ctr : Nat) : Node K × Nat :=
  match insertAux t root key v ctr with
  | (n, none, ctr1) => (n, ctr1)
  | (n, some (r, m), ctr1) => (.internal [m] [n, r], ctr1)

mutual

/-- Descent of `BPlus::optimistic_insert` below the root: route through
internal nodes with read latches; at the target leaf, return `Err` (`none`)
if the leaf holds `2·t − 1` entries, otherwise update it in place. -/
def optimisticDescend [LinearOrder K] (t : Nat) :
    Node K → K → ChunkHandler → Option (Node K)
  | .leaf id es nx, key, v =>
    if es.length = 2 * t - 1 then none
    else some (.leaf id (optInsertEntry es key v) nx)
  | .internal ks cs, key, v =>
    (optimisticChild t cs (routeIdx ks key) key v).map (.internal ks ·)

/-- Recursion of `optimisticDescend` into `internal.children[pos]`; the `[]`
case would be an out-of-bounds panic in the source, unreachable on
well-formed trees. -/
def optimisticChild [LinearOrder K] (t : Nat) :
    List (Node K) → Nat → K → ChunkHandler → Option (List (Node K))
  | [], _, _, _ => none
  | c :: cs, 0, key, v => (optimisticDescend t c key v).map (· :: cs)
  | c :: cs, n + 1, key, v => (optimisticChild t cs n key v).map (c :: ·)

end

/-- Mirrors `BPlus::optimistic_insert`: returns `Err` (`none`) when the root
is a leaf, otherwise descends; on success the only mutation is the in-place
leaf update. -/
def optimisticInsert [LinearOrder K] (t : Nat) (root : Node K) (key : K)
    (v : ChunkHandler) : Option (Node K) :=
  match root with
  | .leaf _ _ _ => none
  | .internal ks cs =>
    (optimisticChild t cs (routeIdx ks key) key v).map (.internal ks ·)

/-- Tree-level effect of `BPlus::insert` on the root node: try the
optimistic fast path first, fall back to the pessimistic path on `Err`. -/
def insertNode [LinearOrder K] [Inhabited K] (t : Nat) (root : Node K) (key : K)
    (v : ChunkHandler) (ctr : Nat) : Node K × Nat :=
  match optimisticInsert t root key v with
  | some n => (n, ctr)
  | none => treeInsert t root key v ctr

/-- Mirrors `const DEFAULT_MAX_FILE_SIZE: u64 = 2 << 20`. -/
def DEFAULT_MAX_FILE_SIZE : Nat := 2 <<< 20

/-- Mirrors `struct BPlus` (latch and open file handle elided; `ctr` is the
fresh-id counter standing for `Arc` allocation of leaves). -/
structure BPlus (K : Type) where
  root : Node K
  t : Nat
  store : ChunkStore
  ctr : Nat

/-- Mirrors `BPlus::new`: empty leaf root, segment file `"0"` created empty,
cursor at 0.  `maxFileSize` is a parameter so that the `max_file_size`
field assignments of the tests are expressible. -/
def BPlus.new (K : Type) (t maxFileSize : Nat) : BPlus K :=
  { root := .leaf 0 [] none, t := t,
    store := { segments := fun _ => [], fileNumber := 0, offset := 0,
               maxFileSize := maxFileSize },
    ctr := 1 }

/-- Mirrors `BPlus::insert`: write the chunk first
(`self.get_chunk_handler(value)`), then insert the handle into the tree. -/
def BPlus.insert [LinearOrder K] [Inhabited K] (b : BPlus K) (key : K)
    (value : Bytes) : BPlus K :=
  let hs := getChunkHandler b.store value
  let rc := insertNode b.t b.root key hs.1 b.ctr
  { b with root := rc.1, store := hs.2, ctr := rc.2 }

/-- Error cases of `BPlus::get`: the `NotFound` kind (missing key or missing
child), or an I/O error propagated from `ChunkHandler::read`. -/
inductive GetError where
  | notFound
  | ioError
deriving DecidableEq, Repr

/-- Mirrors `BPlus::get`: find the handle by descending the tree, then read
its bytes from the segment file. -/
def BPlus.get [LinearOrder K] (b : BPlus K) (key : K) : Except GetError Bytes :=
  match getHandle b.root key with
  | none => .error .notFound
  | some h =>
    match h.read b.store.segments with
    | some bs => .ok bs
    | none => .error .ioError

/-- Runs a sequence of `insert` operations left to right. -/
def runInserts [LinearOrder K] [Inhabited K] (b : BPlus K) :
    List (K × Bytes) → BPlus K
  | [] => b
  | (k, v) :: ops => runInserts (b.insert k v) ops

/-- Value of the last insert with the given key in an operation sequence. -/
def lastValue [DecidableEq K] : List (K × Bytes) → K → Option Bytes
  | [], _ => none
  | (k0, v0) :: rest, k =>
    match lastValue rest k with
    | some v => some v
    | none => if k = k0 then some v0 else none

/-- Mirrors `chunkfs::Data`: an inline chunk of bytes, or the post-processed
target-chunk variant that `BPlusStorage::insert` does not support. -/
inductive Data where
  | chunk (bytes : Bytes)
  | targetChunk
deriving DecidableEq, Repr

/-- Mirrors `struct BPlusStorage`: the tree, the set of currently inserting
keys, and the inserts spawned onto the runtime but not yet completed. -/
structure BPlusStorage (K : Type) where
  tree : BPlus K
  keysSet : List K
  pending : List (K × Bytes)

/-- Mirrors `BPlusStorage::new` (wrapping `BPlus::new`). -/
def BPlusStorage.new (K : Type) (t : Nat) : BPlusStorage K :=
  { tree := BPlus.new K t DEFAULT_MAX_FILE_SIZE, keysSet := [], pending := [] }

/-- Mirrors `<BPlusStorage as Database>::insert`, of type
`io::Result<()>`.  The outer `Option` models panics (`none` is a panic, and
`unimplemented!()` on a target chunk panics before any state change); the
`Except Unit Unit` is the returned `Result` (`Err` values carry no
information the claims need).  An inline chunk is recorded in the in-flight
key set, the tree insert is spawned onto the runtime, and the call returns
`Ok(())` at once. -/
def storageInsert [LinearOrder K] (s : BPlusStorage K) (key : K) (value : Data) :
    Option (BPlusStorage K × Except Unit Unit) :=
  match value with
  | .targetChunk => none
  | .chunk bytes =>
    some ({ s with keysSet := key :: s.keysSet,
                   pending := s.pending ++ [(key, bytes)] }, .ok ())

/-- Completion of the spawned insert tasks: each performs its tree insert
and then removes its key from the in-flight set. -/
def runPending [LinearOrder K] [Inhabited K] (s : BPlusStorage K) : BPlusStorage K :=
  { tree := s.pending.foldl (fun b p => b.insert p.1 p.2) s.tree,
    keysSet := [], pending := [] }

/-- Mirrors `<BPlusStorage as Database>::get`, of type
`io::Result<DataContainer>`: busy-wait until the key is no longer in flight
(modelled by letting the spawned inserts complete), then
`Ok(tree.get(key).await.unwrap().into())` — the `unwrap` panics (`none`)
whenever the tree get returns an error, so the function either returns
`Ok` or panics; no `Err` is ever returned. -/
def storageGet [LinearOrder K] [Inhabited K] (s : BPlusStorage K) (key : K) :
    Option (Except Unit Data) :=
  match (runPending s).tree.get key with
  | .ok bs => some (.ok (.chunk bs))
  | .error _ => none

/-- Mirrors `<BPlusStorage as Database>::contains`: `self.get(key).is_ok()`;
a panic inside `get` propagates (`none`). -/
def storageContains [LinearOrder K] [Inhabited K] (s : BPlusStorage K) (key : K) :
    Option Bool :=
  (storageGet s key).map (fun r => match r with | .ok _ => true | .error _ => false)

/-- Mirrors `enum SerializableNode` (leaf `next` links and node identities
are not serialized). -/
inductive SNode (K : Type) where
  | internal (keys : List K) (children : List (SNode K))
  | leaf (entries : List (K × ChunkHandler))

mutual

/-- Mirrors `Node::serialize`. -/
def serializeNode : Node K → SNode K
  | .leaf _ es _ => .leaf es
  | .internal ks cs => .internal ks (serializeNodeL cs)

def serializeNodeL : List (Node K) → List (SNode K)
  | [] => []
  | c :: cs => serializeNode c :: serializeNodeL cs

end

mutual

/-- Mirrors `impl From<SerializableNode<K>> for Node<K>`: rebuild the nodes,
all leaf `next` links set to `None`; fresh `Arc` identities are modelled by
numbering the leaves in traversal order from the given counter. -/
def nodeFromS : SNode K → Nat → Node K × Nat
  | .leaf es, ctr => (.leaf ctr es none, ctr + 1)
  | .internal ks cs, ctr =>
    let r := nodeFromSL cs ctr
    (.internal ks r.1, r.2)

def nodeFromSL : List (SNode K) → Nat → List (Node K) × Nat
  | [], ctr => ([], ctr)
  | c :: cs, ctr =>
    let r := nodeFromS c ctr
    let rs := nodeFromSL cs r.2
    (r.1 :: rs.1, rs.2)

end

mutual

/-- Total size of a node (for termination of the queue traversal). -/
def Node.sz : Node K → Nat
  | .leaf _ _ _ => 1
  | .internal _ cs => 1 + Node.szL cs

def Node.szL : List (Node K) → Nat
  | [] => 0
  | c :: cs => Node.sz c + Node.szL cs

end

/-- Mirrors `BPlus::collect_leaves`: queue-based traversal (pop front, push
children back) collecting the leaf nodes in pop order. -/
def collectLeaves : List (Node K) → List (Node K)
  | [] => []
  | .leaf id es nx :: rest => .leaf id es nx :: collectLeaves rest
  | .internal _ cs :: rest => collectLeaves (rest ++ cs)
termination_by q => Node.szL q
decreasing_by
  · simp [Node.szL, Node.sz]
  · simp only [Node.szL, Node.sz]
    have h : ∀ a b : List (Node K), Node.szL (a ++ b) = Node.szL a + Node.szL b := by
      intro a b
      induction a with
      | nil => simp [Node.szL]
      | cons x xs ih => simp [Node.szL, ih]; omega
    rw [h]
    omega

/-- First key of a leaf (`leaf_data.entries[0].0` in `rebuild_links`); the
source panics on an empty leaf or a non-leaf, modelled by `default` junk. -/
def leafFirstKey [Inhabited K] : Node K → K
  | .leaf _ es _ => (es.headD (default, ⟨0, 0, 0⟩)).1
  | .internal _ _ => default

/-- Identity of a leaf node (junk 0 on internal nodes, never used there). -/
def leafId : Node K → Nat
  | .leaf id _ _ => id
  | .internal _ _ => 0

/-- Association lookup for the next-link assignment built by the relink
loop of `rebuild_links`. -/
def lookupAssign : List (Nat × Nat) → Nat → Option Nat
  | [], _ => none
  | (i, j) :: rest, id => if id = i then some j else lookupAssign rest id

mutual

/-- Applies the relink loop of `rebuild_links` to the tree: each leaf whose
identity appears in the assignment gets that next link; other leaves keep
theirs.  The shared `Arc` mutation of the source is reproduced through the
leaf identities, which are distinct on every tree the source builds. -/
def applyNexts (assign : List (Nat × Nat)) : Node K → Node K
  | .leaf id es nx =>
    match lookupAssign assign id with
    | some j => .leaf id es (some j)
    | none => .leaf id es nx
  | .internal ks cs => .internal ks (applyNextsL assign cs)

def applyNextsL (assign : List (Nat × Nat)) : List (Node K) → List (Node K)
  | [] => []
  | c :: cs => applyNexts assign c :: applyNextsL assign cs

end

/-- Mirrors `BPlus::rebuild_links`: collect the leaves, return unchanged if
the store shows segment 0 and offset 0, otherwise sort the leaves by their
first entry key (`sort_by` on the collected keys) and link each leaf to the
next one in sorted order (`leaves[i].next = leaves[i+1]`). -/
def rebuildLinks [LinearOrder K] [Inhabited K] (b : BPlus K) : BPlus K :=
  let leaves := collectLeaves [b.root]
  if b.store.offset = 0 ∧ b.store.fileNumber = 0 then b
  else
    let sorted := leaves.mergeSort
      (fun a b => decide (leafFirstKey a ≤ leafFirstKey b))
    let ids := sorted.map leafId
    { b with root := applyNexts (ids.zip ids.tail) b.root }

/-- Mirrors `struct SerializableBPlus` (the stored directory path is elided:
save and load use the same data directory). -/
structure SerializableBPlus (K : Type) where
  t : Nat
  fileNumber : Nat
  offset : Nat
  maxFileSize : Nat
  root : SNode K

/-- Mirrors `BPlus::save`: freeze the tree and serialize it. -/
def BPlus.save (b : BPlus K) : SerializableBPlus K :=
  { t := b.t, fileNumber := b.store.fileNumber, offset := b.store.offset,
    maxFileSize := b.store.maxFileSize, root := serializeNode b.root }

/-- Mirrors `BPlus::load` / `SerializableBPlus::deserialize`: rebuild the
nodes (fresh identities, no leaf links), restore the store fields over the
segment files on disk (`segments`), then `rebuild_links`. -/
def BPlus.load [LinearOrder K] [Inhabited K] (s : SerializableBPlus K)
    (segments : Nat → Bytes) : BPlus K :=
  let r := nodeFromS s.root 0
  rebuildLinks
    { root := r.1, t := s.t,
      store := { segments := segments, fileNumber := s.fileNumber,
                 offset := s.offset, maxFileSize := s.maxFileSize },
      ctr := r.2 }

instance {ε α : Type} [DecidableEq ε] [DecidableEq α] : DecidableEq (Except ε α) :=
  fun a b =>
    match a, b with
    | .ok x, .ok y => if h : x = y then .isTrue (by rw [h]) else .isFalse (by simp [h])
    | .error x, .error y =>
      if h : x = y then .isTrue (by rw [h]) else .isFalse (by simp [h])
    | .ok _, .error _ => .isFalse (by simp)
    | .error _, .ok _ => .isFalse (by simp)

mutual

/-- All data entries of a subtree, flattened in tree order (left to right). -/
def entriesOf : Node K → List (K × ChunkHandler)
  | .leaf _ es _ => es
  | .internal _ cs => entriesOfL cs

def entriesOfL : List (Node K) → List (K × ChunkHandler)
  | [] => []
  | c :: cs => entriesOf c ++ entriesOfL cs

end

/-- All keys of a subtree in tree order. -/
def treeKeys (n : Node K) : List K := (entriesOf n).map Prod.fst

/-- Lower-bound test: `k` is at or above the optional lower bound. -/
def loLe [LinearOrder K] (lo : Option K) (k : K) : Prop :=
  match lo with
  | none => True
  | some l => l ≤ k

/-- Upper-bound test: `k` is strictly below the optional upper bound. -/
def ltHi [LinearOrder K] (hi : Option K) (k : K) : Prop :=
  match hi with
  | none => True
  | some h => k < h

/-- Entry keys strictly ascending starting strictly above `prev`, all below
`hi`. -/
def entsGt [LinearOrder K] (prev : K) (hi : Option K) :
    List (K × ChunkHandler) → Prop
  | [] => True
  | (k, _) :: rest => prev < k ∧ ltHi hi k ∧ entsGt k hi rest

/-- Entry keys strictly ascending, within the half-open interval given by
the optional bounds (`lo ≤ key < hi`). -/
def entsSorted [LinearOrder K] (lo hi : Option K) :
    List (K × ChunkHandler) → Prop
  | [] => True
  | (k, _) :: rest => loLe lo k ∧ ltHi hi k ∧ entsGt k hi rest

mutual

/-- Well-formedness of a node of the tree, as maintained by the insert
paths: key bounds (`lo ≤ keys < hi`), strict in-node ordering, the fanout
bounds between operations (a leaf splits the moment it reaches `2·t`
entries, an internal node the moment it reaches `2·t − 1` keys, so between
operations a leaf holds at most `2·t − 1` entries and an internal node at
most `2·t − 2` keys; the root flag `r` relaxes the lower bounds), and
uniform leaf depth `d`. -/
inductive WFNode {K : Type} [LinearOrder K] (t : Nat) :
    Bool → Option K → Option K → Nat → Node K → Prop where
  | leaf : ∀ (r : Bool) (lo hi : Option K) (id : Nat)
      (es : List (K × ChunkHandler)) (nx : Option Nat),
      (if r then 0 else t) ≤ es.length →
      es.length ≤ 2 * t - 1 →
      entsSorted lo hi es →
      WFNode t r lo hi 0 (.leaf id es nx)
  | internal : ∀ (r : Bool) (lo hi : Option K) (d : Nat)
      (ks : List K) (cs : List (Node K)),
      (if r then 1 else t - 1) ≤ ks.length →
      ks.length ≤ 2 * t - 2 →
      WFKids t lo hi d ks cs →
      WFNode t r lo hi (d + 1) (.internal ks cs)

/-- Well-formedness of the key/child sequence of an internal node: `n + 1`
children interleaved with `n` separator keys, each child well formed within
the bounds cut by the neighbouring separators (keys of the child left of a
separator are strictly below it, the separator is `≤` the keys right of
it), each separator within the node's own bounds. -/
inductive WFKids {K : Type} [LinearOrder K] (t : Nat) :
    Option K → Option K → Nat → List K → List (Node K) → Prop where
  | single : ∀ (lo hi : Option K) (d : Nat) (c : Node K),
      WFNode t false lo hi d c →
      WFKids t lo hi d [] [c]
  | cons : ∀ (lo hi : Option K) (d : Nat) (k : K)
      (ks : List K) (c : Node K) (cs : List (Node K)),
      loLe lo k → ltHi hi k →
      WFNode t false lo (some k) d c →
      WFKids t (some k) hi d ks cs →
      WFKids t lo hi d (k :: ks) (c :: cs)

end

/-- Well-formedness of a whole tree rooted at `n`. -/
def TreeWF [LinearOrder K] (t : Nat) (n : Node K) : Prop :=
  ∃ d, WFNode t true none none d n

mutual

/-- The leaves of a subtree in tree order, as `(identity, next link)`. -/
def leafChain : Node K → List (Nat × Option Nat)
  | .leaf id _ nx => [(id, nx)]
  | .internal _ cs => leafChainL cs

def leafChainL : List (Node K) → List (Nat × Option Nat)
  | [] => []
  | c :: cs => leafChain c ++ leafChainL cs

end

/-- The `(identity, next link)` sequence forms a linked list: every element
links to the identity of the element after it, and the last link is absent. -/
def linkedChain : List (Nat × Option Nat) → Prop
  | [] => True
  | (_, nx) :: rest =>
    match rest with
    | [] => nx = none
    | (j, _) :: _ => nx = some j ∧ linkedChain rest

/-- All leaf identities of the tree are below the fresh-id counter, and
distinct. -/
def IdsOk (n : Node K) (ctr : Nat) : Prop :=
  ((leafChain n).map Prod.fst).Nodup ∧ ∀ i ∈ (leafChain n).map Prod.fst, i < ctr

mutual

/-- Every node of a subtree, in preorder. -/
def allNodes : Node K → List (Node K)
  | .leaf id es nx => [.leaf id es nx]
  | .internal ks cs => .internal ks cs :: allNodesL cs

def allNodesL : List (Node K) → List (Node K)
  | [] => []
  | c :: cs => allNodes c ++ allNodesL cs

end

/-- Every node strictly below the root. -/
def strictSubNodes : Node K → List (Node K)
  | .leaf _ _ _ => []
  | .internal _ cs => allNodesL cs

/-- Keys within one node are strictly ascending. -/
def nodeKeysSorted [LinearOrder K] : Node K → Prop
  | .leaf _ es _ => (es.map Prod.fst).Chain' (· < ·)
  | .internal ks _ => ks.Chain' (· < ·)

/-- Arity and separator ordering of one node: an internal node with `n`
separator keys has exactly `n + 1` children, all keys of child `i` are
strictly below separator `i`, and separator `i` is `≤` all keys of child
`i + 1`. -/
def nodeSepsOk [LinearOrder K] [Inhabited K] : Node K → Prop
  | .leaf _ _ _ => True
  | .internal ks cs =>
    cs.length = ks.length + 1 ∧
    ∀ i, i < ks.length →
      (∀ x ∈ treeKeys (cs.getD i (junkNode K)), x < ks.getD i default) ∧
      (∀ y ∈ treeKeys (cs.getD (i + 1) (junkNode K)), ks.getD i default ≤ y)

/-- Fanout bounds of one non-root node: between `t − 1` and `2·t − 1` keys
for an internal node, between `t` and `2·t − 1` entries for a leaf. -/
def nodeBoundsOk (t : Nat) : Node K → Prop
  | .leaf _ es _ => t ≤ es.length ∧ es.length ≤ 2 * t - 1
  | .internal ks _ => t - 1 ≤ ks.length ∧ ks.length ≤ 2 * t - 1

mutual

/-- Depths of all leaves of a subtree, in tree order. -/
def leafDepths : Node K → List Nat
  | .leaf _ _ _ => [0]
  | .internal _ cs => (leafDepthsL cs).map (· + 1)

def leafDepthsL : List (Node K) → List Nat
  | [] => []
  | c :: cs => leafDepths c ++ leafDepthsL cs

end

/-- The second byte list extends the first (the source only ever appends to
a segment file). -/
def grows (xs ys : Bytes) : Prop := ∃ zs, ys = xs ++ zs

/-- Store bookkeeping invariant: segments beyond the current one were never
created, and the cursor sits exactly at the end of the current segment. -/
def StoreInv (st : ChunkStore) : Prop :=
  (∀ j, st.fileNumber < j → st.segments j = []) ∧
  st.offset = (st.segments st.fileNumber).length

/-- Every handler stored in the tree reads back successfully. -/
def HandlersOk [LinearOrder K] (n : Node K) (st : ChunkStore) : Prop :=
  ∀ p ∈ entriesOf n, ∃ bs, ChunkHandler.read p.2 st.segments = some bs

/-- Combined invariant of a `BPlus` value established by `new` and kept by
`insert`. -/
def Inv [LinearOrder K] (b : BPlus K) : Prop :=
  TreeWF b.t b.root ∧ StoreInv b.store ∧ HandlersOk b.root b.store ∧
  linkedChain (leafChain b.root) ∧ IdsOk b.root b.ctr

/-- The structural invariants of §3 of the specification, stated directly
over the node structure: keys within every node strictly ascending; every
internal node has `n + 1` children for `n` separator keys ordered around
them; all keys of the tree strictly ascending in tree order (hence no
duplicate key anywhere); every non-root node within the fanout bounds; all
leaves at one depth; and the leaf chain linked in tree order with distinct
leaf identities (no cycle), the last link absent. -/
def SpecInvariants [LinearOrder K] [Inhabited K] (t : Nat) (n : Node K) : Prop :=
  (∀ m ∈ allNodes n, nodeKeysSorted m ∧ nodeSepsOk m) ∧
  (treeKeys n).Chain' (· < ·) ∧
  (∀ m ∈ strictSubNodes n, nodeBoundsOk t m) ∧
  (∃ dep, ∀ x ∈ leafDepths n, x = dep) ∧
  linkedChain (leafChain n) ∧
  ((leafChain n).map Prod.fst).Nodup

mutual

/-- Number of leaves of a serialized subtree. -/
def numLeaves : SNode K → Nat
  | .leaf _ => 1
  | .internal _ cs => numLeavesL cs

def numLeavesL : List (SNode K) → Nat
  | [] => 0
  | c :: cs => numLeaves c + numLeavesL cs

end

mutual

/-- The leaf nodes of a subtree in tree order. -/
def leaves : Node K → List (Node K)
  | .leaf id es nx => [.leaf id es nx]
  | .internal _ cs => leavesL cs

def leavesL : List (Node K) → List (Node K)
  | [] => []
  | c :: cs => leaves c ++ leavesL cs

end

/-- C3: on an overfull leaf (`2·t` entries), `Node::split` keeps the first
`t` entries in the left node, moves the remaining `t` entries to the new
right leaf, returns the first key of the right leaf as the median while it
stays stored in the right leaf, hands the old leaf's next link to the new
leaf and points the old leaf's next link at the new leaf; on an overfull
internal node (`2·t − 1` keys, `2·t` children) the right node receives
`keys.split_off(t − 1)` minus its first element, which is returned as the
median and kept in neither half, children split at index `t`, leaving
`t − 1` keys and `t` children on each side. -/
theorem C3_split_shape {K : Type} [Inhabited K] :
    (∀ (t id freshId : Nat) (es : List (K × ChunkHandler)) (nx : Option Nat),
      1 ≤ t → es.length = 2 * t →
      ∃ hd rest, es.drop t = hd :: rest ∧
        Node.split (.leaf id es nx) t freshId =
          (.leaf id (es.take t) (some freshId), .leaf freshId (hd :: rest) nx, hd.1) ∧
        (es.take t).length = t ∧ (hd :: rest).length = t) ∧
    (∀ (t freshId : Nat) (ks : List K) (cs : List (Node K)),
      1 ≤ t → ks.length = 2 * t - 1 → cs.length = 2 * t →
      ∃ m, ks = ks.take (t - 1) ++ m :: ks.drop t ∧
        Node.split (.internal ks cs) t freshId =
          (.internal (ks.take (t - 1)) (cs.take t),
           .internal (ks.drop t) (cs.drop t), m) ∧
        (ks.take (t - 1)).length = t - 1 ∧ (cs.take t).length = t ∧
        (ks.drop t).length = t - 1 ∧ (cs.drop t).length = t) := by
  constructor
  · intro t id freshId es nx ht hlen
    have hne : es.drop t ≠ [] := by
      intro h
      have := congrArg List.length h
      simp at this
      omega
    obtain ⟨hd, rest, hre⟩ := List.exists_cons_of_ne_nil hne
    refine ⟨hd, rest, hre, ?_, ?_, ?_⟩
    · simp [Node.split, hre]
    · simp
      omega
    · have := congrArg List.length hre
      simp at this
      simp
      omega
  · intro t freshId ks cs ht hk hc
    have hlt : t - 1 < ks.length := by omega
    have hdk : ks.drop (t - 1) = ks.get ⟨t - 1, hlt⟩ :: ks.drop t := by
      have h1 := List.drop_eq_getElem_cons hlt
      have h2 : t - 1 + 1 = t := by omega
      rw [h2] at h1
      simpa using h1
    refine ⟨ks.get ⟨t - 1, hlt⟩, ?_, ?_, ?_, ?_, ?_, ?_⟩
    · conv_lhs => rw [← List.take_append_drop (t - 1) ks]
      rw [hdk]
    · simp only [Node.split, hdk]
      simp
    · simp
      omega
    · simp
      omega
    · simp
      omega
    · simp
      omega

/-- Witness for C3 at `t = 2`: a leaf with 4 entries and an internal node
with 3 keys and 4 children. -/
theorem C3_split_shape_witness :
    ((1 ≤ 2 ∧
        ([(1, ⟨0, 0, 0⟩), (2, ⟨0, 0, 0⟩), (3, ⟨0, 0, 0⟩), (4, ⟨0, 0, 0⟩)] :
          List (Nat × ChunkHandler)).length = 2 * 2) ∧
      ∃ hd rest,
        ([(1, ⟨0, 0, 0⟩), (2, ⟨0, 0, 0⟩), (3, ⟨0, 0, 0⟩), (4, ⟨0, 0, 0⟩)] :
          List (Nat × ChunkHandler)).drop 2 = hd :: rest ∧
        Node.split
            (.leaf 5 [(1, ⟨0, 0, 0⟩), (2, ⟨0, 0, 0⟩), (3, ⟨0, 0, 0⟩), (4, ⟨0, 0, 0⟩)]
              (some 9)) 2 7 =
          (.leaf 5
            ([(1, ⟨0, 0, 0⟩), (2, ⟨0, 0, 0⟩), (3, ⟨0, 0, 0⟩), (4, ⟨0, 0, 0⟩)].take 2)
            (some 7),
           .leaf 7 (hd :: rest) (some 9), hd.1) ∧
        (([(1, ⟨0, 0, 0⟩), (2, ⟨0, 0, 0⟩), (3, ⟨0, 0, 0⟩), (4, ⟨0, 0, 0⟩)] :
          List (Nat × ChunkHandler)).take 2).length = 2 ∧
        (hd :: rest).length = 2) ∧
    ((1 ≤ 2 ∧ ([10, 20, 30] : List Nat).length = 2 * 2 - 1 ∧
        ([junkNode Nat, junkNode Nat, junkNode Nat, junkNode Nat]).length = 2 * 2) ∧
      ∃ m, ([10, 20, 30] : List Nat) =
          [10, 20, 30].take (2 - 1) ++ m :: [10, 20, 30].drop 2 ∧
        Node.split
            (.internal [10, 20, 30] [junkNode Nat, junkNode Nat, junkNode Nat, junkNode Nat])
            2 7 =
          (.internal ([10, 20, 30].take (2 - 1))
            ([junkNode Nat, junkNode Nat, junkNode Nat, junkNode Nat].take 2),
           .internal ([10, 20, 30].drop 2)
            ([junkNode Nat, junkNode Nat, junkNode Nat, junkNode Nat].drop 2), m) ∧
        (([10, 20, 30] : List Nat).take (2 - 1)).length = 2 - 1 ∧
        ([junkNode Nat, junkNode Nat, junkNode Nat, junkNode Nat].take 2).length = 2 ∧
        (([10, 20, 30] : List Nat).drop 2).length = 2 - 1 ∧
        ([junkNode Nat, junkNode Nat, junkNode Nat, junkNode Nat].drop 2).length = 2) :=
  ⟨⟨⟨by decide, by decide⟩,
    C3_split_shape.1 2 5 7 [(1, ⟨0, 0, 0⟩), (2, ⟨0, 0, 0⟩), (3, ⟨0, 0, 0⟩), (4, ⟨0, 0, 0⟩)]
      (some 9) (by decide) (by decide)⟩,
   ⟨⟨by decide, by decide, by decide⟩,
    C3_split_shape.2 2 7 [10, 20, 30]
      [junkNode Nat, junkNode Nat, junkNode Nat, junkNode Nat]
      (by decide) (by decide) (by decide)⟩⟩

/-- C9: when the root node is a leaf, `optimistic_insert` returns `Err`
without touching the tree, so the insert is carried out by the pessimistic
latch-crabbing path (`insertNode` reduces to `treeInsert`). -/
theorem C9_optimistic_root_leaf {K : Type} [LinearOrder K] [Inhabited K] :
    ∀ (t id : Nat) (es : List (K × ChunkHandler)) (nx : Option Nat) (key : K)
      (v : ChunkHandler) (ctr : Nat),
      optimisticInsert t (.leaf id es nx) key v = none ∧
      insertNode t (.leaf id es nx) key v ctr =
        treeInsert t (.leaf id es nx) key v ctr := by
  intro t id es nx key v ctr
  exact ⟨rfl, rfl⟩

/-- C10: for an inline chunk, the adapter's `insert` returns `Ok(())`
unconditionally and at once; the key is recorded in the in-flight set, the
tree insert is only queued for the background task, and the tree itself is
untouched, so no failure of the chunk write or tree mutation reaches the
caller through the return value. -/
theorem C10_storage_insert_unconditional {K : Type} [LinearOrder K] :
    ∀ (s : BPlusStorage K) (key : K) (bytes : Bytes),
      storageInsert s key (.chunk bytes) =
        some ({ tree := s.tree, keysSet := key :: s.keysSet,
                pending := s.pending ++ [(key, bytes)] }, .ok ()) := by
  intro s key bytes
  rfl

/-- Counterexample to C8 as stated: on a target chunk the adapter's `insert`
does not return the Unsupported error as its `Result` — it panics
(`unimplemented!()`), so no `Result` value is produced at all. -/
theorem C8_counterexample :
    ¬ ∃ (s' : BPlusStorage Nat) (r : Except Unit Unit),
        storageInsert (BPlusStorage.new Nat 2) 0 .targetChunk = some (s', r) := by
  intro h
  obtain ⟨s', r, h⟩ := h
  simp [storageInsert] at h

/-- C8 (amended): a call of the adapter's `insert` with the non-inline
(target chunk) variant is rejected synchronously by a panic
(`unimplemented!()`); it neither succeeds nor mutates the tree, the
in-flight set, or the task queue — no state or `Result` is produced. -/
theorem C8_target_chunk_panics {K : Type} [LinearOrder K] :
    ∀ (s : BPlusStorage K) (key : K),
      storageInsert s key .targetChunk = none := by
  intro s key
  rfl

/-- C7: the adapter's `contains` is `get(key).is_ok()`, but `get` unwraps
the tree lookup, so it either returns `Ok` (and `contains` yields `true`)
or panics — it never returns an `Err` result.  For a key that was never
inserted both `get` and `contains` panic instead of returning `Err`
respectively `false`. -/
theorem C7_contains_get_panic :
    (∀ (s : BPlusStorage Nat) (k : Nat),
        storageContains s k = none ∨ storageContains s k = some true) ∧
    storageGet (BPlusStorage.new Nat 2) 42 = none ∧
    storageContains (BPlusStorage.new Nat 2) 42 = none := by
  refine ⟨?_, by decide, by decide⟩
  intro s k
  unfold storageContains storageGet
  cases (runPending s).tree.get k with
  | ok bs => right; rfl
  | error e => left; rfl

set_option maxRecDepth 100000

/-- C6: segment rotation is checked before, not after, the write: when the
cursor is at or beyond `max_file_size` the segment index advances by one,
the fresh segment file starts empty (truncating), and the write lands at
offset 0 of the new segment; otherwise the write lands at the current
cursor of the current segment; the returned handle carries the pre-write
offset and the byte length and the cursor advances by that length (so a
single value may push a segment past `max_file_size`).  Concretely, with
`max_file_size = 128`, inserting 200 bytes and then 10 bytes leaves segment
index 1 and offset 10, and both values read back correctly. -/
theorem C6_segment_rotation :
    (∀ (st : ChunkStore) (v : Bytes),
      (st.maxFileSize ≤ st.offset →
        (getChunkHandler st v).1 = ⟨st.fileNumber + 1, 0, v.length⟩ ∧
        (getChunkHandler st v).2.fileNumber = st.fileNumber + 1 ∧
        (getChunkHandler st v).2.offset = v.length ∧
        (getChunkHandler st v).2.segments (st.fileNumber + 1) = writeAt [] 0 v) ∧
      (st.offset < st.maxFileSize →
        (getChunkHandler st v).1 = ⟨st.fileNumber, st.offset, v.length⟩ ∧
        (getChunkHandler st v).2.fileNumber = st.fileNumber ∧
        (getChunkHandler st v).2.offset = st.offset + v.length)) ∧
    ((((BPlus.new Nat 2 128).insert 1 (List.replicate 200 0)).insert 2
        (List.replicate 10 0)).store.fileNumber = 1 ∧
     (((BPlus.new Nat 2 128).insert 1 (List.replicate 200 0)).insert 2
        (List.replicate 10 0)).store.offset = 10 ∧
     (((BPlus.new Nat 2 128).insert 1 (List.replicate 200 0)).insert 2
        (List.replicate 10 0)).get 1 = .ok (List.replicate 200 0) ∧
     (((BPlus.new Nat 2 128).insert 1 (List.replicate 200 0)).insert 2
        (List.replicate 10 0)).get 2 = .ok (List.replicate 10 0)) := by
  constructor
  · intro st v
    constructor
    · intro hrot
      have h : ¬ st.offset < st.maxFileSize := by omega
      simp [getChunkHandler, if_pos hrot, setSeg]
    · intro hlt
      have h : ¬ st.maxFileSize ≤ st.offset := by omega
      simp [getChunkHandler, if_neg h]
  · refine ⟨by rfl, by rfl, ?_, ?_⟩ <;> rfl

/-- Witness for C6 at a rotated store (cursor 130 ≥ 128) and an unrotated
store (cursor 5 < 128). -/
theorem C6_segment_rotation_witness :
    ((128 ≤ 130 ∧
      ((getChunkHandler ⟨fun _ => [], 0, 130, 128⟩ [1, 2]).1 = ⟨0 + 1, 0, [1, 2].length⟩ ∧
       (getChunkHandler ⟨fun _ => [], 0, 130, 128⟩ [1, 2]).2.fileNumber = 0 + 1 ∧
       (getChunkHandler ⟨fun _ => [], 0, 130, 128⟩ [1, 2]).2.offset = [1, 2].length ∧
       (getChunkHandler ⟨fun _ => [], 0, 130, 128⟩ [1, 2]).2.segments (0 + 1) =
         writeAt [] 0 [1, 2])) ∧
     (5 < 128 ∧
      ((getChunkHandler ⟨fun _ => [], 0, 5, 128⟩ [1, 2]).1 = ⟨0, 5, [1, 2].length⟩ ∧
       (getChunkHandler ⟨fun _ => [], 0, 5, 128⟩ [1, 2]).2.fileNumber = 0 ∧
       (getChunkHandler ⟨fun _ => [], 0, 5, 128⟩ [1, 2]).2.offset = 5 + [1, 2].length))) :=
  ⟨⟨by decide, (C6_segment_rotation.1 ⟨fun _ => [], 0, 130, 128⟩ [1, 2]).1 (by decide)⟩,
   ⟨by decide, (C6_segment_rotation.1 ⟨fun _ => [], 0, 5, 128⟩ [1, 2]).2 (by decide)⟩⟩

section OrderLemmas

variable [LinearOrder K]

theorem loLe_of_le {lo : Option K} {a b : K} (h : loLe lo a) (hab : a ≤ b) :
    loLe lo b := by
  cases lo with
  | none => trivial
  | some l => exact le_trans h hab

theorem ltHi_of_le {hi : Option K} {a b : K} (h : ltHi hi b) (hab : a ≤ b) :
    ltHi hi a := by
  cases hi with
  | none => trivial
  | some l => exact lt_of_le_of_lt hab h

theorem entsGt_mem {p : K} {hi : Option K} {es : List (K × ChunkHandler)}
    (h : entsGt p hi es) : ∀ q ∈ es, p < q.1 ∧ ltHi hi q.1 := by
  induction es generalizing p with
  | nil => intro q hq; cases hq
  | cons a rest ih =>
    obtain ⟨h1, h2, h3⟩ := h
    intro q hq
    cases hq with
    | head => exact ⟨h1, h2⟩
    | tail _ hq =>
      obtain ⟨hq1, hq2⟩ := ih h3 q hq
      exact ⟨lt_trans h1 hq1, hq2⟩

theorem entsSorted_mem {lo hi : Option K} {es : List (K × ChunkHandler)}
    (h : entsSorted lo hi es) : ∀ q ∈ es, loLe lo q.1 ∧ ltHi hi q.1 := by
  cases es with
  | nil => intro q hq; cases hq
  | cons a rest =>
    obtain ⟨h1, h2, h3⟩ := h
    intro q hq
    cases hq with
    | head => exact ⟨h1, h2⟩
    | tail _ hq =>
      obtain ⟨hq1, hq2⟩ := entsGt_mem h3 q hq
      exact ⟨loLe_of_le h1 (le_of_lt hq1), hq2⟩

theorem entsGt_weaken {p p' : K} {hi : Option K} {es : List (K × ChunkHandler)}
    (h : entsGt p hi es) (hp : p' ≤ p) : entsGt p' hi es := by
  cases es with
  | nil => trivial
  | cons a rest =>
    obtain ⟨h1, h2, h3⟩ := h
    exact ⟨lt_of_le_of_lt hp h1, h2, h3⟩

theorem entsSorted_of_gt {p : K} {hi : Option K} {es : List (K × ChunkHandler)}
    (h : entsGt p hi es) : entsSorted (some p) hi es := by
  cases es with
  | nil => trivial
  | cons a rest =>
    obtain ⟨h1, h2, h3⟩ := h
    exact ⟨le_of_lt h1, h2, h3⟩

theorem entsGt_of_sorted {m : K} {hi : Option K} {es : List (K × ChunkHandler)}
    (h : entsSorted (some m) hi es) (p : K) (hp : p < m) : entsGt p hi es := by
  cases es with
  | nil => trivial
  | cons a rest =>
    obtain ⟨h1, h2, h3⟩ := h
    exact ⟨lt_of_lt_of_le hp h1, h2, h3⟩

theorem entsGt_append_split {p mk : K} {w : ChunkHandler} {hi : Option K}
    {A R : List (K × ChunkHandler)}
    (h : entsGt p hi (A ++ (mk, w) :: R)) :
    entsGt p (some mk) A ∧ p < mk ∧ entsGt mk hi R ∧ ltHi hi mk := by
  induction A generalizing p with
  | nil =>
    obtain ⟨h1, h2, h3⟩ := h
    exact ⟨trivial, h1, h3, h2⟩
  | cons a A ih =>
    obtain ⟨h1, h2, h3⟩ := h
    obtain ⟨ih1, ih2, ih3, ih4⟩ := ih h3
    exact ⟨⟨h1, ih2, ih1⟩, lt_trans h1 ih2, ih3, ih4⟩

theorem entsSorted_append_split {mk : K} {w : ChunkHandler} {lo hi : Option K}
    {A R : List (K × ChunkHandler)}
    (h : entsSorted lo hi (A ++ (mk, w) :: R)) :
    entsSorted lo (some mk) A ∧ entsSorted (some mk) hi ((mk, w) :: R) ∧
    loLe lo mk ∧ ltHi hi mk := by
  cases A with
  | nil =>
    obtain ⟨h1, h2, h3⟩ := h
    exact ⟨trivial, ⟨le_refl mk, h2, h3⟩, h1, h2⟩
  | cons a A =>
    obtain ⟨h1, h2, h3⟩ := h
    obtain ⟨g1, g2, g3, g4⟩ := entsGt_append_split h3
    refine ⟨⟨h1, g2, g1⟩, ⟨le_refl mk, g4, g3⟩, loLe_of_le h1 (le_of_lt g2), g4⟩

theorem entsGt_append_glue {p m : K} {hi : Option K}
    {A B : List (K × ChunkHandler)}
    (hA : entsGt p (some m) A) (hB : entsSorted (some m) hi B)
    (hpm : p < m) (hm : ltHi hi m) : entsGt p hi (A ++ B) := by
  induction A generalizing p with
  | nil =>
    cases B with
    | nil => trivial
    | cons b B =>
      obtain ⟨bk, bw⟩ := b
      obtain ⟨h1, h2, h3⟩ := hB
      exact ⟨lt_of_lt_of_le hpm h1, h2, h3⟩
  | cons a A ih =>
    obtain ⟨ak, aw⟩ := a
    obtain ⟨h1, h2, h3⟩ := hA
    have h2' : ak < m := h2
    exact ⟨h1, ltHi_of_le hm (le_of_lt h2'), ih h3 h2'⟩

theorem entsSorted_append_glue {m : K} {lo hi : Option K}
    {A B : List (K × ChunkHandler)}
    (hA : entsSorted lo (some m) A) (hB : entsSorted (some m) hi B)
    (hlo : loLe lo m) (hm : ltHi hi m) : entsSorted lo hi (A ++ B) := by
  cases A with
  | nil =>
    simp only [List.nil_append]
    cases B with
    | nil => trivial
    | cons b B =>
      obtain ⟨bk, bw⟩ := b
      obtain ⟨h1, h2, h3⟩ := hB
      exact ⟨loLe_of_le hlo h1, h2, h3⟩
  | cons a A =>
    obtain ⟨ak, aw⟩ := a
    obtain ⟨h1, h2, h3⟩ := hA
    have h2' : ak < m := h2
    exact ⟨h1, ltHi_of_le hm (le_of_lt h2'), entsGt_append_glue h3 hB h2' hm⟩

end OrderLemmas

section EntryOps

variable [LinearOrder K]

theorem insertEntry_length {es : List (K × ChunkHandler)} {key : K}
    {v : ChunkHandler} :
    es.length ≤ (insertEntry es key v).length ∧
    (insertEntry es key v).length ≤ es.length + 1 := by
  induction es with
  | nil => simp [insertEntry]
  | cons a rest ih =>
    obtain ⟨k, w⟩ := a
    by_cases h1 : key < k
    · simp [insertEntry, h1]
    · by_cases h2 : key = k
      · simp [insertEntry, h1, h2]
      · simpa [insertEntry, h1, h2, Nat.succ_le_succ_iff] using ih

theorem insertEntry_ne_nil {es : List (K × ChunkHandler)} {key : K}
    {v : ChunkHandler} : insertEntry es key v ≠ [] := by
  cases es with
  | nil => simp [insertEntry]
  | cons a rest =>
    obtain ⟨k, w⟩ := a
    by_cases h1 : key < k
    · simp [insertEntry, h1]
    · by_cases h2 : key = k
      · simp [insertEntry, h1, h2]
      · simp [insertEntry, h1, h2]

theorem insertEntry_mem {es : List (K × ChunkHandler)} {key : K}
    {v : ChunkHandler} :
    ∀ p ∈ insertEntry es key v, p = (key, v) ∨ p ∈ es := by
  induction es with
  | nil => simp [insertEntry]
  | cons a rest ih =>
    obtain ⟨k, w⟩ := a
    intro p hp
    by_cases h1 : key < k
    · simp only [insertEntry, if_pos h1] at hp
      rcases List.mem_cons.mp hp with h | h
      · exact Or.inl h
      · exact Or.inr h
    · by_cases h2 : key = k
      · simp only [insertEntry, if_neg h1, if_pos h2] at hp
        rcases List.mem_cons.mp hp with h | h
        · exact Or.inl h
        · exact Or.inr (List.mem_cons_of_mem _ h)
      · simp only [insertEntry, if_neg h1, if_neg h2] at hp
        rcases List.mem_cons.mp hp with h | h
        · exact Or.inr (by simp [h])
        · rcases ih p h with h' | h'
          · exact Or.inl h'
          · exact Or.inr (List.mem_cons_of_mem _ h')

theorem insertEntry_entsGt {p : K} {hi : Option K} {es : List (K × ChunkHandler)}
    {key : K} {v : ChunkHandler} (h : entsGt p hi es) (hk1 : p < key)
    (hk2 : ltHi hi key) : entsGt p hi (insertEntry es key v) := by
  induction es generalizing p with
  | nil => exact ⟨hk1, hk2, trivial⟩
  | cons a rest ih =>
    obtain ⟨k, w⟩ := a
    obtain ⟨h1, h2, h3⟩ := h
    by_cases c1 : key < k
    · simp only [insertEntry, if_pos c1]
      exact ⟨hk1, hk2, c1, h2, h3⟩
    · by_cases c2 : key = k
      · simp only [insertEntry, if_neg c1, if_pos c2]
        subst c2
        exact ⟨hk1, hk2, h3⟩
      · simp only [insertEntry, if_neg c1, if_neg c2]
        have hkk : k < key := lt_of_le_of_ne (le_of_not_lt c1) (fun h => c2 h.symm)
        exact ⟨h1, h2, ih h3 hkk⟩

theorem insertEntry_entsSorted {lo hi : Option K} {es : List (K × ChunkHandler)}
    {key : K} {v : ChunkHandler} (h : entsSorted lo hi es) (hk1 : loLe lo key)
    (hk2 : ltHi hi key) : entsSorted lo hi (insertEntry es key v) := by
  cases es with
  | nil => exact ⟨hk1, hk2, trivial⟩
  | cons a rest =>
    obtain ⟨k, w⟩ := a
    obtain ⟨h1, h2, h3⟩ := h
    by_cases c1 : key < k
    · simp only [insertEntry, if_pos c1]
      exact ⟨hk1, hk2, c1, h2, h3⟩
    · by_cases c2 : key = k
      · simp only [insertEntry, if_neg c1, if_pos c2]
        subst c2
        exact ⟨hk1, hk2, h3⟩
      · simp only [insertEntry, if_neg c1, if_neg c2]
        have hkk : k < key := lt_of_le_of_ne (le_of_not_lt c1) (fun h => c2 h.symm)
        exact ⟨h1, h2, insertEntry_entsGt h3 hkk hk2⟩

theorem findEntry_insertEntry {es : List (K × ChunkHandler)} {key k : K}
    {v : ChunkHandler} :
    findEntry (insertEntry es key v) k = if k = key then some v else findEntry es k := by
  induction es with
  | nil =>
    by_cases h : k = key
    · simp [insertEntry, findEntry, h]
    · by_cases h2 : k < key
      · simp [insertEntry, findEntry, h, h2]
      · simp [insertEntry, findEntry, h, h2]
  | cons a rest ih =>
    obtain ⟨k0, w⟩ := a
    by_cases c1 : key < k0
    · simp only [insertEntry, if_pos c1]
      by_cases d1 : k = key
      · simp [findEntry, d1]
      · by_cases d2 : k < key
        · have : k < k0 := lt_trans d2 c1
          simp [findEntry, d1, d2, this]
        · simp [findEntry, d1, d2]
    · by_cases c2 : key = k0
      · simp only [insertEntry, if_neg c1, if_pos c2]
        subst c2
        by_cases d1 : k = key
        · subst d1
          simp [findEntry, lt_irrefl]
        · simp [findEntry, d1]
      · simp only [insertEntry, if_neg c1, if_neg c2]
        have hkk : k0 < key := lt_of_le_of_ne (le_of_not_lt c1) (fun h => c2 h.symm)
        by_cases d1 : k < k0
        · have d2 : k ≠ key := fun h => absurd (h ▸ d1) (not_lt_of_ge (le_of_lt hkk))
          simp [findEntry, d1, d2]
        · by_cases d3 : k = k0
          · have d2 : k ≠ key := fun h => absurd (h ▸ hkk) (by rw [d3]; exact lt_irrefl k0)
            have d4 : k0 ≠ key := fun h => d2 (d3.trans h)
            simp [findEntry, d1, d3, d2, d4]
          · simp only [findEntry, if_neg d1, if_neg d3]
            exact ih

theorem optInsertEntry_eq_insertEntry {es : List (K × ChunkHandler)} {key : K}
    {v : ChunkHandler} : optInsertEntry es key v = insertEntry es key v := by
  induction es with
  | nil => rfl
  | cons a rest ih =>
    obtain ⟨k, w⟩ := a
    by_cases c1 : key < k
    · simp [optInsertEntry, insertEntry, c1]
    · by_cases c2 : key = k
      · simp [optInsertEntry, insertEntry, c1, c2]
      · simp [optInsertEntry, insertEntry, c1, c2, ih]

theorem findEntry_append_left_lt {A B : List (K × ChunkHandler)} {key : K}
    (h : ∀ p ∈ A, p.1 < key) : findEntry (A ++ B) key = findEntry B key := by
  induction A with
  | nil => rfl
  | cons a A ih =>
    obtain ⟨k, w⟩ := a
    have hk : k < key := h (k, w) (by simp)
    have h1 : ¬ key < k := not_lt_of_ge (le_of_lt hk)
    have h2 : key ≠ k := fun h => absurd (h ▸ hk) (lt_irrefl key)
    simp only [List.cons_append, findEntry, if_neg h1, if_neg h2]
    exact ih (fun p hp => h p (List.mem_cons_of_mem _ hp))

theorem findEntry_append_right_gt {A B : List (K × ChunkHandler)} {key : K}
    (h : ∀ p ∈ B, key < p.1) : findEntry (A ++ B) key = findEntry A key := by
  induction A with
  | nil =>
    cases B with
    | nil => rfl
    | cons b B =>
      obtain ⟨k, w⟩ := b
      have hk : key < k := h (k, w) (by simp)
      simp [findEntry, hk]
  | cons a A ih =>
    obtain ⟨k, w⟩ := a
    by_cases h1 : key < k
    · simp [findEntry, h1]
    · by_cases h2 : key = k
      · simp [findEntry, h1, h2]
      · simp only [List.cons_append, findEntry, if_neg h1, if_neg h2]
        exact ih

theorem insertEntry_append_back {A B : List (K × ChunkHandler)} {key : K}
    {v : ChunkHandler} (h : ∀ p ∈ A, p.1 < key) :
    insertEntry (A ++ B) key v = A ++ insertEntry B key v := by
  induction A with
  | nil => rfl
  | cons a A ih =>
    obtain ⟨k, w⟩ := a
    have hk : k < key := h (k, w) (by simp)
    have h1 : ¬ key < k := not_lt_of_ge (le_of_lt hk)
    have h2 : key ≠ k := fun h => absurd (h ▸ hk) (lt_irrefl key)
    have hih := ih (fun p hp => h p (List.mem_cons_of_mem _ hp))
    simp only [List.cons_append, insertEntry, if_neg h1, if_neg h2, List.append_eq, hih]

theorem insertEntry_append_front {A B : List (K × ChunkHandler)} {key : K}
    {v : ChunkHandler} (h : ∀ p ∈ B, key < p.1) :
    insertEntry (A ++ B) key v = insertEntry A key v ++ B := by
  induction A with
  | nil =>
    cases B with
    | nil => rfl
    | cons b B =>
      obtain ⟨k, w⟩ := b
      have hk : key < k := h (k, w) (by simp)
      simp [insertEntry, hk]
  | cons a A ih =>
    obtain ⟨k, w⟩ := a
    by_cases h1 : key < k
    · simp [insertEntry, h1]
    · by_cases h2 : key = k
      · simp [insertEntry, h1, h2]
      · simp only [List.cons_append, insertEntry, if_neg h1, if_neg h2, List.append_eq, ih]

end EntryOps

theorem entriesOfL_append {a b : List (Node K)} :
    entriesOfL (a ++ b) = entriesOfL a ++ entriesOfL b := by
  induction a with
  | nil => rfl
  | cons c cs ih => simp [entriesOfL, ih]

theorem leafChainL_append {a b : List (Node K)} :
    leafChainL (a ++ b) = leafChainL a ++ leafChainL b := by
  induction a with
  | nil => rfl
  | cons c cs ih => simp [leafChainL, ih]

theorem WFKids_length {K : Type} [LinearOrder K] {t : Nat} :
    ∀ {lo hi : Option K} {d : Nat} {ks : List K} {cs : List (Node K)},
      WFKids t lo hi d ks cs → cs.length = ks.length + 1
  | _, _, _, _, _, .single _ _ _ _ _ => rfl
  | _, _, _, _, _, .cons _ _ _ _ _ _ _ _ _ _ hrest => by
    have := WFKids_length hrest
    simp [List.length_cons, this]

mutual

theorem WFNode_entsSorted {K : Type} [LinearOrder K] {t : Nat} :
    ∀ {r : Bool} {lo hi : Option K} {d : Nat} {n : Node K},
      WFNode t r lo hi d n → entsSorted lo hi (entriesOf n)
  | _, _, _, _, _, .leaf _ _ _ _ _ _ _ _ hs => hs
  | _, _, _, _, _, .internal _ _ _ _ _ _ _ _ hk => WFKids_entsSorted hk

theorem WFKids_entsSorted {K : Type} [LinearOrder K] {t : Nat} :
    ∀ {lo hi : Option K} {d : Nat} {ks : List K} {cs : List (Node K)},
      WFKids t lo hi d ks cs → entsSorted lo hi (entriesOfL cs)
  | _, _, _, _, _, .single _ _ _ _ hc => by
    have h := WFNode_entsSorted hc
    simpa [entriesOfL] using h
  | _, _, _, _, _, .cons _ _ _ k _ _ _ hlo hhi hc hrest => by
    have hA := WFNode_entsSorted hc
    have hB := WFKids_entsSorted hrest
    simp only [entriesOfL]
    exact entsSorted_append_glue hA hB hlo hhi

end

mutual

theorem getHandle_eq {K : Type} [LinearOrder K] {t : Nat} :
    ∀ {r : Bool} {lo hi : Option K} {d : Nat} {n : Node K} {key : K},
      WFNode t r lo hi d n → loLe lo key → ltHi hi key →
      getHandle n key = findEntry (entriesOf n) key
  | _, _, _, _, _, _, .leaf _ _ _ _ _ _ _ _ _, _, _ => rfl
  | _, _, _, _, _, key, .internal _ _ _ _ ks cs _ _ hk, hklo, hkhi => by
    show getHandleAt cs (routeIdx ks key) key = findEntry (entriesOfL cs) key
    exact getHandleAt_eq hk hklo hkhi

theorem getHandleAt_eq {K : Type} [LinearOrder K] {t : Nat} :
    ∀ {lo hi : Option K} {d : Nat} {ks : List K} {cs : List (Node K)} {key : K},
      WFKids t lo hi d ks cs → loLe lo key → ltHi hi key →
      getHandleAt cs (routeIdx ks key) key = findEntry (entriesOfL cs) key
  | _, _, _, _, _, _, .single _ _ _ c hc, hklo, hkhi => by
    have h := getHandle_eq hc hklo hkhi
    simpa [routeIdx, getHandleAt, entriesOfL] using h
  | _, _, _, _, _, key, .cons _ _ _ k ks c cs _ _ hc hrest, hklo, hkhi => by
    by_cases hkey : key < k
    · have hA := getHandle_eq hc hklo hkey
      have hBkeys : ∀ p ∈ entriesOfL cs, key < p.1 := by
        intro p hp
        have hmem := (entsSorted_mem (WFKids_entsSorted hrest) p hp).1
        exact lt_of_lt_of_le hkey hmem
      simp only [routeIdx, if_pos hkey, getHandleAt, entriesOfL]
      rw [findEntry_append_right_gt hBkeys]
      exact hA
    · have hk2 : k ≤ key := le_of_not_lt hkey
      have hB := getHandleAt_eq hrest hk2 hkhi
      have hAkeys : ∀ p ∈ entriesOf c, p.1 < key := by
        intro p hp
        have hmem := (entsSorted_mem (WFNode_entsSorted hc) p hp).2
        exact lt_of_lt_of_le hmem hk2
      simp only [routeIdx, if_neg hkey, getHandleAt, entriesOfL]
      rw [findEntry_append_left_lt hAkeys]
      exact hB

end

theorem routeIdx_le {K : Type} [LinearOrder K] (ks : List K) (key : K) :
    routeIdx ks key ≤ ks.length := by
  induction ks with
  | nil => simp [routeIdx]
  | cons k ks ih =>
    by_cases h : key < k
    · simp [routeIdx, h]
    · simpa [routeIdx, h] using ih

theorem WFNode_keyWitness {K : Type} [LinearOrder K] {t : Nat} (ht : 2 ≤ t) :
    ∀ {lo hi : Option K} {d : Nat} {n : Node K}, WFNode t false lo hi d n →
      ∃ x : K, loLe lo x ∧ ltHi hi x := by
  intro lo hi d n h
  cases h with
  | leaf _ _ _ id es nx hl hu hs =>
    simp only [Bool.false_eq_true, if_neg] at hl
    cases es with
    | nil => simp at hl; omega
    | cons e es' =>
      obtain ⟨ek, ew⟩ := e
      obtain ⟨h1, h2, _⟩ := hs
      exact ⟨ek, h1, h2⟩
  | internal _ _ _ d ks cs hl hu hk =>
    cases hk with
    | single _ _ _ c hc =>
      simp only [Bool.false_eq_true, if_neg] at hl
      simp at hl
      omega
    | cons _ _ _ k ks' c cs' hlo hhi _ _ =>
      exact ⟨k, hlo, hhi⟩

theorem WFKids_lt {K : Type} [LinearOrder K] {t : Nat} (ht : 2 ≤ t) :
    ∀ {a b : K} {d : Nat} {ks : List K} {cs : List (Node K)},
      WFKids t (some a) (some b) d ks cs → a < b := by
  intro a b d ks cs h
  cases h with
  | single _ _ _ c hc =>
    obtain ⟨x, hx1, hx2⟩ := WFNode_keyWitness ht hc
    exact lt_of_le_of_lt hx1 hx2
  | cons _ _ _ k ks' c cs' hlo hhi _ _ =>
    exact lt_of_le_of_lt hlo hhi

theorem WFKids_split_at {K : Type} [LinearOrder K] {t : Nat} (ht : 2 ≤ t) :
    ∀ {lo hi : Option K} {d : Nat} {ks : List K} {cs : List (Node K)},
      WFKids t lo hi d ks cs → ∀ j, j < ks.length →
      ∃ m, ks.drop j = m :: ks.drop (j + 1) ∧
        WFKids t lo (some m) d (ks.take j) (cs.take (j + 1)) ∧
        WFKids t (some m) hi d (ks.drop (j + 1)) (cs.drop (j + 1)) ∧
        loLe lo m ∧ ltHi hi m
  | _, _, _, _, _, .single _ _ _ _ _, j, hj => by simp at hj
  | _, _, _, _, _, .cons lo hi d k ks c cs hlo hhi hc hrest, 0, hj => by
    refine ⟨k, rfl, ?_, hrest, hlo, hhi⟩
    simpa using WFKids.single lo (some k) d c hc
  | _, _, _, _, _, .cons lo hi d k ks c cs hlo hhi hc hrest, j + 1, hj => by
    have hj' : j < ks.length := by simpa using hj
    obtain ⟨m, hdrop, L, R, hbm, hhm⟩ := WFKids_split_at ht hrest j hj'
    have hkm : k < m := by
      have hyp : WFKids t (some k) (some m) d (ks.take j) (cs.take (j + 1)) := L
      exact WFKids_lt ht hyp
    refine ⟨m, ?_, ?_, ?_, loLe_of_le hlo (le_of_lt hkm), hhm⟩
    · simpa using hdrop
    · show WFKids t lo (some m) d (k :: ks.take j) (c :: cs.take (j + 1))
      exact WFKids.cons lo (some m) d k (ks.take j) c (cs.take (j + 1))
        hlo hkm hc L
    · simpa using R

mutual

theorem insertAux_sound {K : Type} [LinearOrder K] [Inhabited K] {t : Nat}
    (ht : 2 ≤ t) :
    ∀ {r : Bool} {lo hi : Option K} {d : Nat} {n : Node K} {key : K}
      (v : ChunkHandler) (ctr : Nat),
      WFNode t r lo hi d n → loLe lo key → ltHi hi key →
      (∀ n' ctr', insertAux t n key v ctr = (n', none, ctr') →
        WFNode t r lo hi d n' ∧
        entriesOf n' = insertEntry (entriesOf n) key v) ∧
      (∀ n' nr m ctr', insertAux t n key v ctr = (n', some (nr, m), ctr') →
        WFNode t false lo (some m) d n' ∧ WFNode t false (some m) hi d nr ∧
        loLe lo m ∧ ltHi hi m ∧
        entriesOf n' ++ entriesOf nr = insertEntry (entriesOf n) key v)
  | _, _, _, _, _, key, v, ctr, .leaf r lo hi id es nx hlow hup hs, hklo, hkhi => by
    have hsorted1 : entsSorted lo hi (insertEntry es key v) :=
      insertEntry_entsSorted hs hklo hkhi
    have hlen : es.length ≤ (insertEntry es key v).length ∧
          (insertEntry es key v).length ≤ es.length + 1 := insertEntry_length
    by_cases hl : (insertEntry es key v).length = 2 * t
    · have hne : (insertEntry es key v).drop t ≠ [] := by
        intro h
        have := congrArg List.length h
        simp at this
        omega
      obtain ⟨hd0, R, hdrop⟩ := List.exists_cons_of_ne_nil hne
      obtain ⟨mk, w⟩ := hd0
      have hdec : insertEntry es key v =
          (insertEntry es key v).take t ++ (mk, w) :: R := by
        conv_lhs => rw [← List.take_append_drop t (insertEntry es key v)]
        rw [hdrop]
      have hsplit : Node.split (.leaf id (insertEntry es key v) nx) t ctr =
          (.leaf id ((insertEntry es key v).take t) (some ctr),
           .leaf ctr ((mk, w) :: R) nx, mk) := by
        simp [Node.split, hdrop]
      have hsor : entsSorted lo (some mk) ((insertEntry es key v).take t) ∧
          entsSorted (some mk) hi ((mk, w) :: R) ∧ loLe lo mk ∧ ltHi hi mk := by
        have h2 := hsorted1
        rw [hdec] at h2
        exact entsSorted_append_split h2
      have hlt : ((insertEntry es key v).take t).length = t := by
        simp
        omega
      have hlR : ((mk, w) :: R).length = t := by
        have := congrArg List.length hdrop
        simp at this
        simp
        omega
      constructor
      · intro n' ctr' heq
        simp only [insertAux, if_pos hl] at heq
        simp [hsplit] at heq
      · intro n' nr m ctr' heq
        simp only [insertAux, if_pos hl, hsplit] at heq
        obtain ⟨hn', ⟨hnr, hm⟩, hctr⟩ :
            (Node.leaf id ((insertEntry es key v).take t) (some ctr) : Node K) = n' ∧
            ((Node.leaf ctr ((mk, w) :: R) nx : Node K) = nr ∧ mk = m) ∧
            ctr + 1 = ctr' := by
          simpa using heq
        subst hn'; subst hnr; subst hm
        refine ⟨?_, ?_, hsor.2.2.1, hsor.2.2.2, ?_⟩
        · refine WFNode.leaf false lo (some mk) id _ _ ?_ ?_ hsor.1
          · simp [hlt]
          · simp [hlt]; omega
        · refine WFNode.leaf false (some mk) hi ctr _ _ ?_ ?_ hsor.2.1
          · simp [hlR]
          · simp [hlR]; omega
        · show entriesOf (Node.leaf id ((insertEntry es key v).take t) (some ctr)) ++
              entriesOf (Node.leaf ctr ((mk, w) :: R) nx) = _
          simp only [entriesOf]
          exact hdec.symm
    · constructor
      · intro n' ctr' heq
        simp only [insertAux, if_neg hl] at heq
        obtain ⟨hn', hctr⟩ :
            (Node.leaf id (insertEntry es key v) nx : Node K) = n' ∧ ctr = ctr' := by
          simpa using heq
        subst hn'
        refine ⟨WFNode.leaf r lo hi id _ nx ?_ ?_ hsorted1, rfl⟩
        · exact le_trans hlow hlen.1
        · omega
      · intro n' nr m ctr' heq
        simp only [insertAux, if_neg hl] at heq
        simp at heq
  | _, _, _, _, _, key, v, ctr,
      .internal r lo hi d ks cs hlow hup hk, hklo, hkhi => by
    have IH := insertChild_sound ht v ctr hk hklo hkhi
    rcases hrc : insertChild t cs (routeIdx ks key) key v ctr with ⟨cs1, sp, ctr1⟩
    cases sp with
    | none =>
      have hres := IH.1 cs1 ctr1 (by rw [hrc])
      constructor
      · intro n' ctr' heq
        simp only [insertAux, hrc] at heq
        obtain ⟨hn', hctr⟩ : (Node.internal ks cs1 : Node K) = n' ∧ ctr1 = ctr' := by
          simpa using heq
        subst hn'
        exact ⟨WFNode.internal r lo hi d ks cs1 hlow hup hres.1, hres.2⟩
      · intro n' nr m ctr' heq
        simp only [insertAux, hrc] at heq
        simp at heq
    | some p =>
      obtain ⟨nn, med⟩ := p
      have hres := IH.2 cs1 nn med ctr1 (by rw [hrc])
      have hplen : routeIdx ks key ≤ ks.length := routeIdx_le ks key
      have hlen1 : (ks.insertIdx (routeIdx ks key) med).length = ks.length + 1 :=
        List.length_insertIdx _ _ hplen
      by_cases hfull : (ks.insertIdx (routeIdx ks key) med).length = 2 * t - 1
      · -- the internal node splits
        have hjlt : t - 1 < (ks.insertIdx (routeIdx ks key) med).length := by omega
        obtain ⟨m2, hdrop2, L2, R2, hbm2, hhm2⟩ :=
          WFKids_split_at ht hres.1 (t - 1) hjlt
        have ht1 : t - 1 + 1 = t := by omega
        rw [ht1] at hdrop2 L2 R2
        have hsplit : Node.split
            (.internal (ks.insertIdx (routeIdx ks key) med)
              (cs1.insertIdx (routeIdx ks key + 1) nn)) t ctr1 =
            (.internal ((ks.insertIdx (routeIdx ks key) med).take (t - 1))
              ((cs1.insertIdx (routeIdx ks key + 1) nn).take t),
             .internal ((ks.insertIdx (routeIdx ks key) med).drop t)
              ((cs1.insertIdx (routeIdx ks key + 1) nn).drop t), m2) := by
          simp [Node.split, hdrop2]
        constructor
        · intro n' ctr' heq
          simp only [insertAux, hrc, if_pos hfull, hsplit] at heq
          simp at heq
        · intro n' nr m ctr' heq
          simp only [insertAux, hrc, if_pos hfull, hsplit] at heq
          obtain ⟨hn', ⟨hnr, hm⟩, hctr⟩ :
              (Node.internal ((ks.insertIdx (routeIdx ks key) med).take (t - 1))
                ((cs1.insertIdx (routeIdx ks key + 1) nn).take t) : Node K) = n' ∧
              ((Node.internal ((ks.insertIdx (routeIdx ks key) med).drop t)
                ((cs1.insertIdx (routeIdx ks key + 1) nn).drop t) : Node K) = nr ∧
               m2 = m) ∧ ctr1 = ctr' := by
            simpa using heq
          subst hn'; subst hnr; subst hm
          have hdroplen := congrArg List.length hdrop2
          simp only [List.length_drop, List.length_cons] at hdroplen
          refine ⟨?_, ?_, hbm2, hhm2, ?_⟩
          · refine WFNode.internal false lo (some m2) d _ _ ?_ ?_ L2
            · simp; omega
            · simp; omega
          · refine WFNode.internal false (some m2) hi d _ _ ?_ ?_ R2
            · simp; omega
            · simp; omega
          · show entriesOfL ((cs1.insertIdx (routeIdx ks key + 1) nn).take t) ++
                entriesOfL ((cs1.insertIdx (routeIdx ks key + 1) nn).drop t) = _
            rw [← entriesOfL_append, List.take_append_drop]
            exact hres.2
      · constructor
        · intro n' ctr' heq
          simp only [insertAux, hrc, if_neg hfull] at heq
          obtain ⟨hn', hctr⟩ :
              (Node.internal (ks.insertIdx (routeIdx ks key) med)
                (cs1.insertIdx (routeIdx ks key + 1) nn) : Node K) = n' ∧
              ctr1 = ctr' := by
            simpa using heq
          subst hn'
          refine ⟨WFNode.internal r lo hi d _ _ ?_ ?_ hres.1, hres.2⟩
          · rw [hlen1]; omega
          · omega
        · intro n' nr m ctr' heq
          simp only [insertAux, hrc, if_neg hfull] at heq
          simp at heq

theorem insertChild_sound {K : Type} [LinearOrder K] [Inhabited K] {t : Nat}
    (ht : 2 ≤ t) :
    ∀ {lo hi : Option K} {d : Nat} {ks : List K} {cs : List (Node K)} {key : K}
      (v : ChunkHandler) (ctr : Nat),
      WFKids t lo hi d ks cs → loLe lo key → ltHi hi key →
      (∀ cs' ctr', insertChild t cs (routeIdx ks key) key v ctr = (cs', none, ctr') →
        WFKids t lo hi d ks cs' ∧
        entriesOfL cs' = insertEntry (entriesOfL cs) key v) ∧
      (∀ cs' nn m ctr',
        insertChild t cs (routeIdx ks key) key v ctr = (cs', some (nn, m), ctr') →
        WFKids t lo hi d (ks.insertIdx (routeIdx ks key) m)
          (cs'.insertIdx (routeIdx ks key + 1) nn) ∧
        entriesOfL (cs'.insertIdx (routeIdx ks key + 1) nn) =
          insertEntry (entriesOfL cs) key v)
  | _, _, _, _, _, key, v, ctr, .single lo hi d c hc, hklo, hkhi => by
    have IH := insertAux_sound ht v ctr hc hklo hkhi
    rcases hra : insertAux t c key v ctr with ⟨c1, sp, ctr1⟩
    cases sp with
    | none =>
      have hres := IH.1 c1 ctr1 (by rw [hra])
      constructor
      · intro cs' ctr' heq
        simp only [routeIdx, insertChild, hra] at heq
        obtain ⟨hcs', hctr⟩ : [c1] = cs' ∧ ctr1 = ctr' := by simpa using heq
        subst hcs'
        refine ⟨WFKids.single lo hi d c1 hres.1, ?_⟩
        simp [entriesOfL, hres.2]
      · intro cs' nn m ctr' heq
        simp only [routeIdx, insertChild, hra] at heq
        simp at heq
    | some p =>
      obtain ⟨nn0, m0⟩ := p
      have hres := IH.2 c1 nn0 m0 ctr1 (by rw [hra])
      constructor
      · intro cs' ctr' heq
        simp only [routeIdx, insertChild, hra] at heq
        simp at heq
      · intro cs' nn m ctr' heq
        simp only [routeIdx, insertChild, hra] at heq
        obtain ⟨hcs', ⟨hnn, hm⟩, hctr⟩ :
            [c1] = cs' ∧ (nn0 = nn ∧ m0 = m) ∧ ctr1 = ctr' := by
          simpa using heq
        subst hcs'; subst hnn; subst hm
        constructor
        · show WFKids t lo hi d ([].insertIdx 0 m0 : List K) ([c1].insertIdx 1 nn0)
          simp only [List.insertIdx_zero]
          show WFKids t lo hi d [m0] [c1, nn0]
          refine WFKids.cons lo hi d m0 [] c1 [nn0] hres.2.2.1 hres.2.2.2.1
            hres.1 (WFKids.single (some m0) hi d nn0 hres.2.1)
        · show entriesOfL ([c1].insertIdx 1 nn0) = _
          simp only [List.insertIdx_succ_cons, List.insertIdx_zero]
          show entriesOfL [c1, nn0] = _
          simp only [entriesOfL, List.append_nil]
          exact hres.2.2.2.2
  | _, _, _, _, _, key, v, ctr,
      .cons lo hi d k ks c cs hslo hshi hc hrest, hklo, hkhi => by
    by_cases hkey : key < k
    · -- the key routes into the first child
      have IH := insertAux_sound ht v ctr hc hklo hkey
      have hBgt : ∀ p ∈ entriesOfL cs, key < p.1 := by
        intro p hp
        have hmem := (entsSorted_mem (WFKids_entsSorted hrest) p hp).1
        exact lt_of_lt_of_le hkey hmem
      rcases hra : insertAux t c key v ctr with ⟨c1, sp, ctr1⟩
      cases sp with
      | none =>
        have hres := IH.1 c1 ctr1 (by rw [hra])
        constructor
        · intro cs' ctr' heq
          simp only [routeIdx, if_pos hkey, insertChild, hra] at heq
          obtain ⟨hcs', hctr⟩ : c1 :: cs = cs' ∧ ctr1 = ctr' := by simpa using heq
          subst hcs'
          refine ⟨WFKids.cons lo hi d k ks c1 cs hslo hshi hres.1 hrest, ?_⟩
          simp only [entriesOfL, hres.2]
          rw [insertEntry_append_front hBgt]
        · intro cs' nn m ctr' heq
          simp only [routeIdx, if_pos hkey, insertChild, hra] at heq
          simp at heq
      | some p =>
        obtain ⟨nn0, m0⟩ := p
        have hres := IH.2 c1 nn0 m0 ctr1 (by rw [hra])
        constructor
        · intro cs' ctr' heq
          simp only [routeIdx, if_pos hkey, insertChild, hra] at heq
          simp at heq
        · intro cs' nn m ctr' heq
          simp only [routeIdx, if_pos hkey, insertChild, hra] at heq
          obtain ⟨hcs', ⟨hnn, hm⟩, hctr⟩ :
              c1 :: cs = cs' ∧ (nn0 = nn ∧ m0 = m) ∧ ctr1 = ctr' := by
            simpa using heq
          subst hcs'; subst hnn; subst hm
          have hm0k : m0 < k := hres.2.2.2.1
          constructor
          · simp only [routeIdx, if_pos hkey]
            show WFKids t lo hi d ((k :: ks).insertIdx 0 m0)
              ((c1 :: cs).insertIdx 1 nn0)
            simp only [List.insertIdx_zero, List.insertIdx_succ_cons]
            show WFKids t lo hi d (m0 :: k :: ks) (c1 :: nn0 :: cs)
            refine WFKids.cons lo hi d m0 (k :: ks) c1 (nn0 :: cs)
              hres.2.2.1 (ltHi_of_le hshi (le_of_lt hm0k)) hres.1 ?_
            exact WFKids.cons (some m0) hi d k ks nn0 cs (le_of_lt hm0k) hshi
              hres.2.1 hrest
          · simp only [routeIdx, if_pos hkey]
            show entriesOfL ((c1 :: cs).insertIdx 1 nn0) = _
            simp only [List.insertIdx_succ_cons, List.insertIdx_zero]
            show entriesOfL (c1 :: nn0 :: cs) = _
            simp only [entriesOfL]
            rw [← List.append_assoc, hres.2.2.2.2, insertEntry_append_front hBgt]
    · -- the key routes into the tail
      have hk2 : k ≤ key := le_of_not_lt hkey
      have IH := insertChild_sound ht v ctr hrest hk2 hkhi
      have hAlt : ∀ p ∈ entriesOf c, p.1 < key := by
        intro p hp
        have hmem := (entsSorted_mem (WFNode_entsSorted hc) p hp).2
        exact lt_of_lt_of_le hmem hk2
      rcases hrc : insertChild t cs (routeIdx ks key) key v ctr with ⟨cs1, sp, ctr1⟩
      cases sp with
      | none =>
        have hres := IH.1 cs1 ctr1 (by rw [hrc])
        constructor
        · intro cs' ctr' heq
          simp only [routeIdx, if_neg hkey, insertChild, hrc] at heq
          obtain ⟨hcs', hctr⟩ : c :: cs1 = cs' ∧ ctr1 = ctr' := by simpa using heq
          subst hcs'
          refine ⟨WFKids.cons lo hi d k ks c cs1 hslo hshi hc hres.1, ?_⟩
          simp only [entriesOfL, hres.2]
          rw [insertEntry_append_back hAlt]
        · intro cs' nn m ctr' heq
          simp only [routeIdx, if_neg hkey, insertChild, hrc] at heq
          simp at heq
      | some p =>
        obtain ⟨nn0, m0⟩ := p
        have hres := IH.2 cs1 nn0 m0 ctr1 (by rw [hrc])
        constructor
        · intro cs' ctr' heq
          simp only [routeIdx, if_neg hkey, insertChild, hrc] at heq
          simp at heq
        · intro cs' nn m ctr' heq
          simp only [routeIdx, if_neg hkey, insertChild, hrc] at heq
          obtain ⟨hcs', ⟨hnn, hm⟩, hctr⟩ :
              c :: cs1 = cs' ∧ (nn0 = nn ∧ m0 = m) ∧ ctr1 = ctr' := by
            simpa using heq
          subst hcs'; subst hnn; subst hm
          constructor
          · simp only [routeIdx, if_neg hkey]
            show WFKids t lo hi d ((k :: ks).insertIdx (routeIdx ks key + 1) m0)
              ((c :: cs1).insertIdx (routeIdx ks key + 1 + 1) nn0)
            simp only [List.insertIdx_succ_cons]
            exact WFKids.cons lo hi d k (ks.insertIdx (routeIdx ks key) m0) c
              (cs1.insertIdx (routeIdx ks key + 1) nn0) hslo hshi hc hres.1
          · simp only [routeIdx, if_neg hkey]
            show entriesOfL ((c :: cs1).insertIdx (routeIdx ks key + 1 + 1) nn0) = _
            simp only [List.insertIdx_succ_cons]
            show entriesOfL (c :: cs1.insertIdx (routeIdx ks key + 1) nn0) = _
            simp only [entriesOfL, hres.2]
            rw [insertEntry_append_back hAlt]

end

theorem findEntry_mem {K : Type} [LinearOrder K] {es : List (K × ChunkHandler)}
    {k : K} {w : ChunkHandler} (h : findEntry es k = some w) : (k, w) ∈ es := by
  induction es with
  | nil => simp [findEntry] at h
  | cons a rest ih =>
    obtain ⟨k0, w0⟩ := a
    by_cases h1 : k < k0
    · simp [findEntry, h1] at h
    · by_cases h2 : k = k0
      · simp only [findEntry, if_neg h1, if_pos h2] at h
        subst h2
        obtain rfl : w0 = w := by simpa using h
        simp
      · simp only [findEntry, if_neg h1, if_neg h2] at h
        exact List.mem_cons_of_mem _ (ih h)

theorem getHandleAt_none {K : Type} [LinearOrder K] :
    ∀ {cs : List (Node K)} {n : Nat} {key : K}, cs.length ≤ n →
      getHandleAt cs n key = none := by
  intro cs
  induction cs with
  | nil => intro n key h; cases n <;> rfl
  | cons c cs ih =>
    intro n key h
    cases n with
    | zero => simp at h
    | succ n =>
      show getHandleAt cs n key = none
      exact ih (by simpa using h)

mutual

theorem optimisticDescend_eq {K : Type} [LinearOrder K] [Inhabited K] {t : Nat}
    (ht : 2 ≤ t) :
    ∀ {r : Bool} {lo hi : Option K} {d : Nat} {n : Node K} (key : K)
      (v : ChunkHandler) (ctr : Nat),
      WFNode t r lo hi d n →
      ∀ n', optimisticDescend t n key v = some n' →
        insertAux t n key v ctr = (n', none, ctr)
  | _, _, _, _, _, key, v, ctr, .leaf r lo hi id es nx hlow hup hs => by
    intro n' hopt
    by_cases hfull : es.length = 2 * t - 1
    · simp [optimisticDescend, hfull] at hopt
    · simp only [optimisticDescend, if_neg hfull] at hopt
      have hlen : es.length ≤ (insertEntry es key v).length ∧
          (insertEntry es key v).length ≤ es.length + 1 := insertEntry_length
      have hne : (insertEntry es key v).length ≠ 2 * t := by omega
      obtain rfl : Node.leaf id (optInsertEntry es key v) nx = n' := by simpa using hopt
      simp only [insertAux, if_neg hne, optInsertEntry_eq_insertEntry]
  | _, _, _, _, _, key, v, ctr, .internal r lo hi d ks cs hlow hup hk => by
    intro n' hopt
    simp only [optimisticDescend] at hopt
    rcases hoc : optimisticChild t cs (routeIdx ks key) key v with _ | cs'
    · rw [hoc] at hopt; simp at hopt
    · rw [hoc] at hopt
      obtain rfl : (Node.internal ks cs' : Node K) = n' := by simpa using hopt
      have hrec := optimisticChild_eq ht key v ctr hk cs' hoc
      simp only [insertAux, hrec]

theorem optimisticChild_eq {K : Type} [LinearOrder K] [Inhabited K] {t : Nat}
    (ht : 2 ≤ t) :
    ∀ {lo hi : Option K} {d : Nat} {ks : List K} {cs : List (Node K)} (key : K)
      (v : ChunkHandler) (ctr : Nat),
      WFKids t lo hi d ks cs →
      ∀ cs', optimisticChild t cs (routeIdx ks key) key v = some cs' →
        insertChild t cs (routeIdx ks key) key v ctr = (cs', none, ctr)
  | _, _, _, _, _, key, v, ctr, .single lo hi d c hc => by
    intro cs' hopt
    simp only [routeIdx, optimisticChild] at hopt
    rcases hod : optimisticDescend t c key v with _ | c'
    · rw [hod] at hopt; simp at hopt
    · rw [hod] at hopt
      obtain rfl : [c'] = cs' := by simpa using hopt
      have hrec := optimisticDescend_eq ht key v ctr hc c' hod
      simp only [routeIdx, insertChild, hrec]
  | _, _, _, _, _, key, v, ctr, .cons lo hi d k ks c cs hslo hshi hc hrest => by
    intro cs' hopt
    by_cases hkey : key < k
    · simp only [routeIdx, if_pos hkey, optimisticChild] at hopt
      rcases hod : optimisticDescend t c key v with _ | c'
      · rw [hod] at hopt; simp at hopt
      · rw [hod] at hopt
        obtain rfl : c' :: cs = cs' := by simpa using hopt
        have hrec := optimisticDescend_eq ht key v ctr hc c' hod
        simp only [routeIdx, if_pos hkey, insertChild, hrec]
    · simp only [routeIdx, if_neg hkey, optimisticChild] at hopt
      rcases hoc : optimisticChild t cs (routeIdx ks key) key v with _ | cs1
      · rw [hoc] at hopt; simp at hopt
      · rw [hoc] at hopt
        obtain rfl : c :: cs1 = cs' := by simpa using hopt
        have hrec := optimisticChild_eq ht key v ctr hrest cs1 hoc
        simp only [routeIdx, if_neg hkey, insertChild, hrec]

end

theorem insertNode_eq_treeInsert {K : Type} [LinearOrder K] [Inhabited K] {t : Nat}
    (ht : 2 ≤ t) {n : Node K} (hwf : TreeWF t n) (key : K) (v : ChunkHandler)
    (ctr : Nat) : insertNode t n key v ctr = treeInsert t n key v ctr := by
  obtain ⟨d, hwf⟩ := hwf
  cases hopt : optimisticInsert t n key v with
  | none => simp [insertNode, hopt]
  | some n' =>
    cases n with
    | leaf id es nx => simp [optimisticInsert] at hopt
    | internal ks cs =>
      cases hwf with
      | internal _ _ _ d ks cs hlow hup hk =>
        simp only [optimisticInsert] at hopt
        rcases hoc : optimisticChild t cs (routeIdx ks key) key v with _ | cs'
        · rw [hoc] at hopt; simp at hopt
        · rw [hoc] at hopt
          obtain rfl : (Node.internal ks cs' : Node K) = n' := by simpa using hopt
          have hrec := optimisticChild_eq ht key v ctr hk cs' hoc
          have haux : insertAux t (Node.internal ks cs) key v ctr =
              (Node.internal ks cs', none, ctr) := by
            simp only [insertAux, hrec]
          have hopt2 : optimisticInsert t (Node.internal ks cs) key v =
              some (Node.internal ks cs') := by
            simp [optimisticInsert, hoc]
          simp [insertNode, hopt2, treeInsert, haux]

theorem treeInsert_sound {K : Type} [LinearOrder K] [Inhabited K] {t : Nat}
    (ht : 2 ≤ t) {n : Node K} {d : Nat} (hwf : WFNode t true none none d n)
    (key : K) (v : ChunkHandler) (ctr : Nat) :
    ∃ d', WFNode t true none none d' (treeInsert t n key v ctr).1 ∧
      entriesOf (treeInsert t n key v ctr).1 = insertEntry (entriesOf n) key v := by
  have IH := insertAux_sound ht v ctr hwf (show loLe none key from trivial) trivial
  rcases h : insertAux t n key v ctr with ⟨n', sp, ctr'⟩
  cases sp with
  | none =>
    have hres := IH.1 n' ctr' h
    refine ⟨d, ?_, ?_⟩ <;> simp [treeInsert, h, hres.1, hres.2]
  | some p =>
    obtain ⟨nr, m⟩ := p
    have hres := IH.2 n' nr m ctr' h
    refine ⟨d + 1, ?_, ?_⟩
    · simp only [treeInsert, h]
      refine WFNode.internal true none none d [m] [n', nr] (by simp) (by simp; omega) ?_
      exact WFKids.cons none none d m [] n' [nr] trivial trivial hres.1
        (WFKids.single (some m) none d nr hres.2.1)
    · simp only [treeInsert, h, entriesOf, entriesOfL, List.append_nil]
      exact hres.2.2.2.2

mutual

theorem insertAux_chain {K : Type} [LinearOrder K] [Inhabited K] (t : Nat) :
    ∀ (n : Node K) (key : K) (v : ChunkHandler) (ctr : Nat),
      (∀ n' ctr', insertAux t n key v ctr = (n', none, ctr') →
        (ctr' = ctr ∧ leafChain n' = leafChain n) ∨
        (ctr' = ctr + 1 ∧ ∃ pre a nx post,
          leafChain n = pre ++ (a, nx) :: post ∧
          leafChain n' = pre ++ (a, some ctr) :: (ctr, nx) :: post)) ∧
      (∀ n' nr m ctr', insertAux t n key v ctr = (n', some (nr, m), ctr') →
        (ctr' = ctr ∧ leafChain n' ++ leafChain nr = leafChain n) ∨
        (ctr' = ctr + 1 ∧ ∃ pre a nx post,
          leafChain n = pre ++ (a, nx) :: post ∧
          leafChain n' ++ leafChain nr = pre ++ (a, some ctr) :: (ctr, nx) :: post))
  | .leaf id es nx, key, v, ctr => by
    constructor
    · intro n' ctr' heq
      by_cases hl : (insertEntry es key v).length = 2 * t
      · simp [insertAux, if_pos hl, Node.split] at heq
      · simp only [insertAux, if_neg hl] at heq
        obtain ⟨hn', hctr⟩ : (Node.leaf id (insertEntry es key v) nx : Node K) = n' ∧
            ctr = ctr' := by simpa using heq
        subst hn'
        exact Or.inl ⟨hctr.symm, rfl⟩
    · intro n' nr m ctr' heq
      by_cases hl : (insertEntry es key v).length = 2 * t
      · simp only [insertAux, if_pos hl, Node.split] at heq
        obtain ⟨hn', ⟨hnr, hm⟩, hctr⟩ :
            (Node.leaf id ((insertEntry es key v).take t) (some ctr) : Node K) = n' ∧
            ((Node.leaf ctr ((insertEntry es key v).drop t) nx : Node K) = nr ∧
              ((insertEntry es key v).drop t |>.headD (default, ⟨0, 0, 0⟩)).1 = m) ∧
            ctr + 1 = ctr' := by simpa using heq
        subst hn'; subst hnr
        refine Or.inr ⟨hctr.symm, [], id, nx, [], rfl, rfl⟩
      · simp only [insertAux, if_neg hl] at heq
        simp at heq
  | .internal ks cs, key, v, ctr => by
    have IH := insertChild_chain t cs (routeIdx ks key) key v ctr
    rcases hrc : insertChild t cs (routeIdx ks key) key v ctr with ⟨cs1, sp, ctr1⟩
    cases sp with
    | none =>
      have hres := IH.1 cs1 ctr1 hrc
      constructor
      · intro n' ctr' heq
        simp only [insertAux, hrc] at heq
        obtain ⟨hn', hctr⟩ : (Node.internal ks cs1 : Node K) = n' ∧ ctr1 = ctr' := by
          simpa using heq
        subst hn'; subst hctr
        exact hres
      · intro n' nr m ctr' heq
        simp only [insertAux, hrc] at heq
        simp at heq
    | some p =>
      obtain ⟨nn, med⟩ := p
      have hres := IH.2 cs1 nn ctr1 ⟨med, hrc⟩
      by_cases hfull : (ks.insertIdx (routeIdx ks key) med).length = 2 * t - 1
      · constructor
        · intro n' ctr' heq
          simp only [insertAux, hrc, if_pos hfull, Node.split] at heq
          simp at heq
        · intro n' nr m ctr' heq
          simp only [insertAux, hrc, if_pos hfull, Node.split] at heq
          obtain ⟨hn', ⟨hnr, hm⟩, hctr⟩ :
              (Node.internal ((ks.insertIdx (routeIdx ks key) med).take (t - 1))
                ((cs1.insertIdx (routeIdx ks key + 1) nn).take t) : Node K) = n' ∧
              ((Node.internal ((ks.insertIdx (routeIdx ks key) med).drop (t - 1) |>.tail)
                ((cs1.insertIdx (routeIdx ks key + 1) nn).drop t) : Node K) = nr ∧
               ((ks.insertIdx (routeIdx ks key) med).drop (t - 1) |>.headD default) = m) ∧
              ctr1 = ctr' := by simpa using heq
          subst hn'; subst hnr; subst hctr
          have hch : leafChain (Node.internal
                ((ks.insertIdx (routeIdx ks key) med).take (t - 1))
                ((cs1.insertIdx (routeIdx ks key + 1) nn).take t)) ++
              leafChain (Node.internal
                ((ks.insertIdx (routeIdx ks key) med).drop (t - 1) |>.tail)
                ((cs1.insertIdx (routeIdx ks key + 1) nn).drop t)) =
              leafChainL (cs1.insertIdx (routeIdx ks key + 1) nn) := by
            show leafChainL _ ++ leafChainL _ = _
            rw [← leafChainL_append, List.take_append_drop]
          rw [hch]
          exact hres
      · constructor
        · intro n' ctr' heq
          simp only [insertAux, hrc, if_neg hfull] at heq
          obtain ⟨hn', hctr⟩ :
              (Node.internal (ks.insertIdx (routeIdx ks key) med)
                (cs1.insertIdx (routeIdx ks key + 1) nn) : Node K) = n' ∧
              ctr1 = ctr' := by simpa using heq
          subst hn'; subst hctr
          exact hres
        · intro n' nr m ctr' heq
          simp only [insertAux, hrc, if_neg hfull] at heq
          simp at heq

theorem insertChild_chain {K : Type} [LinearOrder K] [Inhabited K] (t : Nat) :
    ∀ (cs : List (Node K)) (pos : Nat) (key : K) (v : ChunkHandler) (ctr : Nat),
      (∀ cs' ctr', insertChild t cs pos key v ctr = (cs', none, ctr') →
        (ctr' = ctr ∧ leafChainL cs' = leafChainL cs) ∨
        (ctr' = ctr + 1 ∧ ∃ pre a nx post,
          leafChainL cs = pre ++ (a, nx) :: post ∧
          leafChainL cs' = pre ++ (a, some ctr) :: (ctr, nx) :: post)) ∧
      (∀ cs' nn ctr', (∃ m, insertChild t cs pos key v ctr = (cs', some (nn, m), ctr')) →
        (ctr' = ctr ∧ leafChainL (cs'.insertIdx (pos + 1) nn) = leafChainL cs) ∨
        (ctr' = ctr + 1 ∧ ∃ pre a nx post,
          leafChainL cs = pre ++ (a, nx) :: post ∧
          leafChainL (cs'.insertIdx (pos + 1) nn) =
            pre ++ (a, some ctr) :: (ctr, nx) :: post))
  | [], pos, key, v, ctr => by
    constructor
    · intro cs' ctr' heq
      obtain ⟨h1, h2⟩ : ([] : List (Node K)) = cs' ∧ ctr = ctr' := by
        simpa [insertChild] using heq
      subst h1; subst h2
      exact Or.inl ⟨rfl, rfl⟩
    · intro cs' nn ctr' ⟨m, heq⟩
      simp [insertChild] at heq
  | c :: cs, 0, key, v, ctr => by
    have IH := insertAux_chain t c key v ctr
    rcases hra : insertAux t c key v ctr with ⟨c1, sp, ctr1⟩
    cases sp with
    | none =>
      have hres := IH.1 c1 ctr1 hra
      constructor
      · intro cs' ctr' heq
        simp only [insertChild, hra] at heq
        obtain ⟨h1, h2⟩ : c1 :: cs = cs' ∧ ctr1 = ctr' := by simpa using heq
        subst h1; subst h2
        rcases hres with ⟨hc, hch⟩ | ⟨hc, pre, a, nx0, post, hold, hnew⟩
        · exact Or.inl ⟨hc, by simp [leafChainL, hch]⟩
        · refine Or.inr ⟨hc, pre, a, nx0, post ++ leafChainL cs, ?_, ?_⟩
          · simp [leafChainL, hold]
          · simp [leafChainL, hnew]
      · intro cs' nn ctr' ⟨m, heq⟩
        simp only [insertChild, hra] at heq
        simp at heq
    | some p =>
      obtain ⟨nn0, m0⟩ := p
      have hres := IH.2 c1 nn0 m0 ctr1 hra
      constructor
      · intro cs' ctr' heq
        simp only [insertChild, hra] at heq
        simp at heq
      · intro cs' nn ctr' ⟨m, heq⟩
        simp only [insertChild, hra] at heq
        obtain ⟨h1, ⟨h2, h3⟩, h4⟩ : c1 :: cs = cs' ∧ (nn0 = nn ∧ m0 = m) ∧
            ctr1 = ctr' := by simpa using heq
        subst h1; subst h2; subst h4
        have hstep : leafChainL ((c1 :: cs).insertIdx 1 nn0) =
            (leafChain c1 ++ leafChain nn0) ++ leafChainL cs := by
          simp only [List.insertIdx_succ_cons, List.insertIdx_zero]
          show leafChainL (c1 :: nn0 :: cs) = _
          simp [leafChainL, List.append_assoc]
        rcases hres with ⟨hc, hch⟩ | ⟨hc, pre, a, nx0, post, hold, hnew⟩
        · refine Or.inl ⟨hc, ?_⟩
          rw [hstep, hch]
          simp [leafChainL]
        · refine Or.inr ⟨hc, pre, a, nx0, post ++ leafChainL cs, ?_, ?_⟩
          · simp [leafChainL, hold]
          · rw [hstep, hnew]
            simp
  | c :: cs, pos + 1, key, v, ctr => by
    have IH := insertChild_chain t cs pos key v ctr
    rcases hrc : insertChild t cs pos key v ctr with ⟨cs1, sp, ctr1⟩
    cases sp with
    | none =>
      have hres := IH.1 cs1 ctr1 hrc
      constructor
      · intro cs' ctr' heq
        simp only [insertChild, hrc] at heq
        obtain ⟨h1, h2⟩ : c :: cs1 = cs' ∧ ctr1 = ctr' := by simpa using heq
        subst h1; subst h2
        rcases hres with ⟨hc, hch⟩ | ⟨hc, pre, a, nx0, post, hold, hnew⟩
        · exact Or.inl ⟨hc, by simp [leafChainL, hch]⟩
        · refine Or.inr ⟨hc, leafChain c ++ pre, a, nx0, post, ?_, ?_⟩
          · simp [leafChainL, hold]
          · simp [leafChainL, hnew]
      · intro cs' nn ctr' ⟨m, heq⟩
        simp only [insertChild, hrc] at heq
        simp at heq
    | some p =>
      obtain ⟨nn0, m0⟩ := p
      have hres := IH.2 cs1 nn0 ctr1 ⟨m0, hrc⟩
      constructor
      · intro cs' ctr' heq
        simp only [insertChild, hrc] at heq
        simp at heq
      · intro cs' nn ctr' ⟨m, heq⟩
        simp only [insertChild, hrc] at heq
        obtain ⟨h1, ⟨h2, h3⟩, h4⟩ : c :: cs1 = cs' ∧ (nn0 = nn ∧ m0 = m) ∧
            ctr1 = ctr' := by simpa using heq
        subst h1; subst h2; subst h4
        have hstep : leafChainL ((c :: cs1).insertIdx (pos + 1 + 1) nn0) =
            leafChain c ++ leafChainL (cs1.insertIdx (pos + 1) nn0) := by
          simp only [List.insertIdx_succ_cons]
          simp [leafChainL]
        rcases hres with ⟨hc, hch⟩ | ⟨hc, pre, a, nx0, post, hold, hnew⟩
        · refine Or.inl ⟨hc, ?_⟩
          rw [hstep, hch]
          simp [leafChainL]
        · refine Or.inr ⟨hc, leafChain c ++ pre, a, nx0, post, ?_, ?_⟩
          · simp [leafChainL, hold]
          · rw [hstep, hnew]
            simp

end

theorem linkedChain_splice :
    ∀ (pre : List (Nat × Option Nat)) {post : List (Nat × Option Nat)} {a b : Nat}
      {nx : Option Nat}, linkedChain (pre ++ (a, nx) :: post) →
      linkedChain (pre ++ (a, some b) :: (b, nx) :: post)
  | [], post, a, b, nx, h => by
    cases post with
    | nil =>
      have hx : nx = none := h
      exact ⟨rfl, hx⟩
    | cons q post =>
      obtain ⟨qk, qnx⟩ := q
      obtain ⟨h1, h2⟩ := h
      exact ⟨rfl, h1, h2⟩
  | (pk, pnx) :: pre, post, a, b, nx, h => by
    cases pre with
    | nil =>
      obtain ⟨h1, h2⟩ := h
      exact ⟨h1, linkedChain_splice [] h2⟩
    | cons q pre' =>
      obtain ⟨qk, qnx⟩ := q
      obtain ⟨h1, h2⟩ := h
      exact ⟨h1, linkedChain_splice ((qk, qnx) :: pre') h2⟩

theorem ids_splice {pre post : List (Nat × Option Nat)} {a : Nat}
    {nx : Option Nat} {ctr : Nat}
    (hids : ((pre ++ (a, nx) :: post).map Prod.fst).Nodup)
    (hlt : ∀ i ∈ (pre ++ (a, nx) :: post).map Prod.fst, i < ctr) :
    ((pre ++ (a, some ctr) :: (ctr, nx) :: post).map Prod.fst).Nodup ∧
    (∀ i ∈ (pre ++ (a, some ctr) :: (ctr, nx) :: post).map Prod.fst, i < ctr + 1) := by
  have hmapold : (pre ++ (a, nx) :: post).map Prod.fst =
      pre.map Prod.fst ++ a :: post.map Prod.fst := by simp
  have hmapnew : (pre ++ (a, some ctr) :: (ctr, nx) :: post).map Prod.fst =
      pre.map Prod.fst ++ a :: ctr :: post.map Prod.fst := by simp
  rw [hmapold] at hids hlt
  rw [hmapnew]
  constructor
  · have hperm : List.Perm (pre.map Prod.fst ++ a :: ctr :: post.map Prod.fst)
        (ctr :: (pre.map Prod.fst ++ a :: post.map Prod.fst)) := by
      have h1 : pre.map Prod.fst ++ a :: ctr :: post.map Prod.fst =
          (pre.map Prod.fst ++ [a]) ++ ctr :: post.map Prod.fst := by simp
      have h2 : ctr :: (pre.map Prod.fst ++ a :: post.map Prod.fst) =
          ctr :: ((pre.map Prod.fst ++ [a]) ++ post.map Prod.fst) := by simp
      rw [h1, h2]
      exact List.perm_middle
    rw [hperm.nodup_iff]
    refine List.Nodup.cons ?_ hids
    intro hmem
    exact absurd (hlt ctr hmem) (lt_irrefl ctr)
  · intro i hi
    rcases List.mem_append.mp hi with h | h
    · exact lt_trans (hlt i (List.mem_append.mpr (Or.inl h))) (Nat.lt_succ_self ctr)
    · rcases List.mem_cons.mp h with h | h
      · subst h
        exact lt_trans (hlt i (by simp)) (Nat.lt_succ_self ctr)
      · rcases List.mem_cons.mp h with h | h
        · subst h
          exact Nat.lt_succ_self i
        · exact lt_trans (hlt i (by simp [h])) (Nat.lt_succ_self ctr)

theorem treeInsert_chain {K : Type} [LinearOrder K] [Inhabited K] (t : Nat)
    (n : Node K) (key : K) (v : ChunkHandler) (ctr : Nat)
    (hlink : linkedChain (leafChain n)) (hids : IdsOk n ctr) :
    linkedChain (leafChain (treeInsert t n key v ctr).1) ∧
    IdsOk (treeInsert t n key v ctr).1 (treeInsert t n key v ctr).2 ∧
    ctr ≤ (treeInsert t n key v ctr).2 := by
  obtain ⟨hnodup, hlt⟩ := hids
  have IH := insertAux_chain t n key v ctr
  rcases h : insertAux t n key v ctr with ⟨n', sp, ctr'⟩
  cases sp with
  | none =>
    have hres := IH.1 n' ctr' h
    simp only [treeInsert, h]
    rcases hres with ⟨hc, hch⟩ | ⟨hc, pre, a, nx0, post, hold, hnew⟩
    · refine ⟨by rw [hch]; exact hlink, ⟨by rw [hch]; exact hnodup, ?_⟩, by omega⟩
      rw [hch, hc]
      exact hlt
    · rw [hold] at hlink hnodup hlt
      obtain ⟨hn2, hl2⟩ := ids_splice hnodup hlt
      refine ⟨by rw [hnew]; exact linkedChain_splice pre hlink,
        ⟨by rw [hnew]; exact hn2, ?_⟩, by omega⟩
      rw [hnew, hc]
      exact hl2
  | some p =>
    obtain ⟨nr, m⟩ := p
    have hres := IH.2 n' nr m ctr' h
    simp only [treeInsert, h]
    have hch2 : leafChain (Node.internal [m] [n', nr]) =
        leafChain n' ++ leafChain nr := by
      show leafChainL [n', nr] = _
      simp [leafChainL]
    rcases hres with ⟨hc, hch⟩ | ⟨hc, pre, a, nx0, post, hold, hnew⟩
    · refine ⟨by rw [hch2, hch]; exact hlink,
        ⟨by rw [hch2, hch]; exact hnodup, ?_⟩, by omega⟩
      rw [hch2, hch, hc]
      exact hlt
    · rw [hold] at hlink hnodup hlt
      obtain ⟨hn2, hl2⟩ := ids_splice hnodup hlt
      refine ⟨by rw [hch2, hnew]; exact linkedChain_splice pre hlink,
        ⟨by rw [hch2, hnew]; exact hn2, ?_⟩, by omega⟩
      rw [hch2, hnew, hc]
      exact hl2

theorem writeAt_append {xs v : Bytes} : writeAt xs xs.length v = xs ++ v := by
  simp [writeAt]

theorem readExactAt_append {xs v : Bytes} :
    readExactAt (xs ++ v) xs.length v.length = some v := by
  have hcond : xs.length + v.length ≤ (xs ++ v).length := by simp
  simp only [readExactAt, if_pos hcond]
  rw [List.drop_append_of_le_length (le_refl xs.length)]
  simp

theorem readExactAt_grows {content zs : Bytes} {off size : Nat} {bs : Bytes}
    (h : readExactAt content off size = some bs) :
    readExactAt (content ++ zs) off size = some bs := by
  simp only [readExactAt] at h
  by_cases hc : off + size ≤ content.length
  · rw [if_pos hc] at h
    have hc2 : off + size ≤ (content ++ zs).length := by simp; omega
    simp only [readExactAt, if_pos hc2]
    rw [List.drop_append_of_le_length (by omega)]
    rw [List.take_append_of_le_length (by simp; omega)]
    exact h
  · rw [if_neg hc] at h
    exact absurd h (by simp)

theorem read_grows {h : ChunkHandler} {segs segs' : Nat → Bytes} {bs : Bytes}
    (hg : ∀ i, grows (segs i) (segs' i)) (hr : ChunkHandler.read h segs = some bs) :
    ChunkHandler.read h segs' = some bs := by
  obtain ⟨zs, hz⟩ := hg h.segment
  unfold ChunkHandler.read at hr ⊢
  rw [hz]
  exact readExactAt_grows hr

theorem getChunkHandler_sound {st : ChunkStore} {v : Bytes} (hinv : StoreInv st) :
    StoreInv (getChunkHandler st v).2 ∧
    ChunkHandler.read (getChunkHandler st v).1 (getChunkHandler st v).2.segments =
      some v ∧
    (∀ i, grows (st.segments i) ((getChunkHandler st v).2.segments i)) ∧
    (getChunkHandler st v).2.maxFileSize = st.maxFileSize ∧
    (st.maxFileSize ≤ st.offset →
      (getChunkHandler st v).2.fileNumber = st.fileNumber + 1 ∧
      (getChunkHandler st v).2.offset = v.length) ∧
    (st.offset < st.maxFileSize →
      (getChunkHandler st v).2.fileNumber = st.fileNumber ∧
      (getChunkHandler st v).2.offset = st.offset + v.length) := by
  obtain ⟨hempty, hoff⟩ := hinv
  by_cases hrot : st.maxFileSize ≤ st.offset
  · have hfresh : st.segments (st.fileNumber + 1) = [] :=
      hempty (st.fileNumber + 1) (Nat.lt_succ_self _)
    have hgch : getChunkHandler st v =
        (⟨st.fileNumber + 1, 0, v.length⟩,
         { segments := setSeg st.segments (st.fileNumber + 1) v,
           fileNumber := st.fileNumber + 1, offset := v.length,
           maxFileSize := st.maxFileSize }) := by
      simp only [getChunkHandler, if_pos hrot]
      have hw : writeAt (setSeg st.segments (st.fileNumber + 1) []
          (st.fileNumber + 1)) 0 v = v := by
        simp [setSeg, writeAt]
      have hs : setSeg (setSeg st.segments (st.fileNumber + 1) [])
          (st.fileNumber + 1) v = setSeg st.segments (st.fileNumber + 1) v := by
        funext j
        by_cases h : j = st.fileNumber + 1 <;> simp [setSeg, h]
      simp [hw, hs]
    rw [hgch]
    dsimp only
    refine ⟨⟨?_, ?_⟩, ?_, ?_, rfl, fun _ => ⟨rfl, rfl⟩, fun hlt => absurd hrot (by omega)⟩
    · intro j hj
      have hj' : st.fileNumber + 1 < j := hj
      simp only [setSeg]
      rw [if_neg (by omega)]
      exact hempty j (by omega)
    · simp [setSeg]
    · show ChunkHandler.read ⟨st.fileNumber + 1, 0, v.length⟩
        (setSeg st.segments (st.fileNumber + 1) v) = some v
      simp only [ChunkHandler.read, setSeg, if_pos rfl]
      have : readExactAt (([] : Bytes) ++ v) ([] : Bytes).length v.length = some v :=
        readExactAt_append
      simpa using this
    · intro i
      by_cases hi : i = st.fileNumber + 1
      · subst hi
        simp only [setSeg, if_pos rfl]
        exact ⟨v, by rw [hfresh]; simp⟩
      · simp only [setSeg, if_neg hi]
        exact ⟨[], by simp⟩
  · have hgch : getChunkHandler st v =
        (⟨st.fileNumber, st.offset, v.length⟩,
         { segments := setSeg st.segments st.fileNumber
             (st.segments st.fileNumber ++ v),
           fileNumber := st.fileNumber, offset := st.offset + v.length,
           maxFileSize := st.maxFileSize }) := by
      simp only [getChunkHandler, if_neg hrot]
      have hw : writeAt (st.segments st.fileNumber) st.offset v =
          st.segments st.fileNumber ++ v := by
        rw [hoff]
        exact writeAt_append
      simp [hw]
    rw [hgch]
    dsimp only
    refine ⟨⟨?_, ?_⟩, ?_, ?_, rfl, fun hge => absurd hge (by omega),
      fun _ => ⟨rfl, rfl⟩⟩
    · intro j hj
      have hj' : st.fileNumber < j := hj
      simp only [setSeg]
      rw [if_neg (by omega)]
      exact hempty j hj'
    · simp [setSeg, hoff]
    · show ChunkHandler.read ⟨st.fileNumber, st.offset, v.length⟩
        (setSeg st.segments st.fileNumber (st.segments st.fileNumber ++ v)) = some v
      simp only [ChunkHandler.read, setSeg, if_pos rfl]
      rw [hoff]
      exact readExactAt_append
    · intro i
      by_cases hi : i = st.fileNumber
      · subst hi
        simp only [setSeg, if_pos rfl]
        exact ⟨v, rfl⟩
      · simp only [setSeg, if_neg hi]
        exact ⟨[], by simp⟩

theorem entsGt_keys_nodup {K : Type} [LinearOrder K] :
    ∀ {p : K} {hi : Option K} {es : List (K × ChunkHandler)},
      entsGt p hi es → (es.map Prod.fst).Nodup := by
  intro p hi es
  induction es generalizing p with
  | nil => intro _; simp
  | cons a rest ih =>
    obtain ⟨ak, aw⟩ := a
    intro h
    obtain ⟨h1, h2, h3⟩ := h
    refine List.Nodup.cons ?_ (ih h3)
    intro hmem
    obtain ⟨q, hq, hqk⟩ := List.mem_map.mp hmem
    have := (entsGt_mem h3 q hq).1
    rw [hqk] at this
    exact absurd this (lt_irrefl ak)

theorem entsSorted_keys_nodup {K : Type} [LinearOrder K] {lo hi : Option K}
    {es : List (K × ChunkHandler)} (h : entsSorted lo hi es) :
    (es.map Prod.fst).Nodup := by
  cases es with
  | nil => simp
  | cons a rest =>
    obtain ⟨ak, aw⟩ := a
    obtain ⟨h1, h2, h3⟩ := h
    refine List.Nodup.cons ?_ (entsGt_keys_nodup h3)
    intro hmem
    obtain ⟨q, hq, hqk⟩ := List.mem_map.mp hmem
    have := (entsGt_mem h3 q hq).1
    rw [hqk] at this
    exact absurd this (lt_irrefl ak)

theorem Inv_new (K : Type) [LinearOrder K] (t maxF : Nat) :
    Inv (BPlus.new K t maxF) := by
  refine ⟨⟨0, ?_⟩, ⟨fun j _ => rfl, rfl⟩, ?_, ?_, ?_, ?_⟩
  · exact WFNode.leaf true none none 0 [] none (by simp) (by simp) trivial
  · intro p hp
    simp [BPlus.new, entriesOf] at hp
  · exact rfl
  · simp [BPlus.new, leafChain]
  · intro i hi
    simp [BPlus.new, leafChain] at hi
    subst hi
    exact Nat.one_pos

theorem insert_step {K : Type} [LinearOrder K] [Inhabited K] {b : BPlus K}
    (ht : 2 ≤ b.t) (hinv : Inv b) (key : K) (val : Bytes) :
    Inv (b.insert key val) ∧ (b.insert key val).t = b.t ∧
    (∀ k, (b.insert key val).get k =
      if k = key then Except.ok val else b.get k) := by
  obtain ⟨hwf, hstore, hhand, hlink, hids⟩ := hinv
  obtain ⟨d, hwfn⟩ := hwf
  obtain ⟨hstore', hread0, hgrow, hmaxeq, _, _⟩ :=
    @getChunkHandler_sound b.store val hstore
  have heqn := insertNode_eq_treeInsert ht ⟨d, hwfn⟩ key
    (getChunkHandler b.store val).1 b.ctr
  obtain ⟨d', hwf', hflat⟩ := treeInsert_sound ht hwfn key
    (getChunkHandler b.store val).1 b.ctr
  obtain ⟨hlink', hids', hctrle⟩ := treeInsert_chain b.t b.root key
    (getChunkHandler b.store val).1 b.ctr hlink hids
  have hb : b.insert key val =
      ⟨(treeInsert b.t b.root key (getChunkHandler b.store val).1 b.ctr).1, b.t,
        (getChunkHandler b.store val).2,
        (treeInsert b.t b.root key (getChunkHandler b.store val).1 b.ctr).2⟩ := by
    simp only [BPlus.insert, heqn]
  rw [hb]
  refine ⟨⟨⟨d', hwf'⟩, hstore', ?_, hlink', hids'⟩, rfl, ?_⟩
  · intro p hp
    simp only [HandlersOk] at hp ⊢
    rw [hflat] at hp
    rcases insertEntry_mem p hp with h | h
    · subst h
      exact ⟨val, hread0⟩
    · obtain ⟨bs, hbs⟩ := hhand p h
      exact ⟨bs, read_grows hgrow hbs⟩
  · intro k
    have hgh : getHandle
        (treeInsert b.t b.root key (getChunkHandler b.store val).1 b.ctr).1 k =
        findEntry (insertEntry (entriesOf b.root) key
          (getChunkHandler b.store val).1) k := by
      rw [← hflat]
      exact getHandle_eq hwf' trivial trivial
    have hgh0 : getHandle b.root k = findEntry (entriesOf b.root) k :=
      getHandle_eq hwfn trivial trivial
    show BPlus.get _ k = _
    simp only [BPlus.get, hgh, findEntry_insertEntry]
    by_cases hk : k = key
    · simp only [if_pos hk, hread0]
    · simp only [if_neg hk]
      cases hfe : findEntry (entriesOf b.root) k with
      | none =>
        simp only [BPlus.get, hgh0, hfe]
      | some h1 =>
        obtain ⟨bs, hbs⟩ := hhand (k, h1) (findEntry_mem hfe)
        have hbs' := read_grows hgrow hbs
        simp only [BPlus.get, hgh0, hfe, hbs, hbs']

theorem runInserts_sound {K : Type} [LinearOrder K] [Inhabited K] :
    ∀ (ops : List (K × Bytes)) (b : BPlus K), 2 ≤ b.t → Inv b →
      (∀ k, (runInserts b ops).get k =
        match lastValue ops k with
        | some v => Except.ok v
        | none => b.get k) ∧
      Inv (runInserts b ops) ∧ (runInserts b ops).t = b.t
  | [], b, ht, hinv => ⟨fun k => rfl, hinv, rfl⟩
  | (k0, v0) :: rest, b, ht, hinv => by
    obtain ⟨hinv', hteq, hget⟩ := insert_step ht hinv k0 v0
    have ht' : 2 ≤ (b.insert k0 v0).t := by rw [hteq]; exact ht
    obtain ⟨IH, IHinv, IHt⟩ := runInserts_sound rest (b.insert k0 v0) ht' hinv'
    refine ⟨?_, IHinv, ?_⟩
    swap
    · show (runInserts (b.insert k0 v0) rest).t = b.t
      rw [IHt, hteq]
    intro k
    show (runInserts (b.insert k0 v0) rest).get k = _
    rw [IH k]
    cases hl : lastValue rest k with
    | some v => simp [lastValue, hl]
    | none =>
      simp only [lastValue, hl]
      rw [hget k]
      by_cases hk : k = k0
      · simp [hk]
      · simp [hk]

theorem lastValue_none_of_not_mem {K : Type} [LinearOrder K] :
    ∀ {ops : List (K × Bytes)} {k : K}, k ∉ ops.map Prod.fst →
      lastValue ops k = none := by
  intro ops
  induction ops with
  | nil => intro k _; rfl
  | cons a rest ih =>
    obtain ⟨k0, v0⟩ := a
    intro k hk
    have h1 : k ≠ k0 := by
      intro h
      exact hk (by simp [h])
    have h2 : k ∉ rest.map Prod.fst := by
      intro h
      exact hk (by simp [h])
    simp only [lastValue, ih h2, if_neg h1]

/-- C1: after any sequence of inserts from a fresh tree (t ≥ 2), `get`
returns the byte vector of the last insert with that key; overwrites happen
in place, so the tree never holds two entries for one key (its key list is
duplicate-free). -/
theorem C1_get_last_insert {K : Type} [LinearOrder K] [Inhabited K]
    (t maxF : Nat) (ht : 2 ≤ t) (ops : List (K × Bytes)) (k : K) (v : Bytes)
    (hlast : lastValue ops k = some v) :
    (runInserts (BPlus.new K t maxF) ops).get k = Except.ok v ∧
    (treeKeys (runInserts (BPlus.new K t maxF) ops).root).Nodup := by
  have hbase := Inv_new K t maxF
  have hbt : 2 ≤ (BPlus.new K t maxF).t := ht
  obtain ⟨hget, hinv, _⟩ := runInserts_sound ops (BPlus.new K t maxF) hbt hbase
  constructor
  · rw [hget k, hlast]
  · obtain ⟨⟨d, hwf⟩, _, _, _, _⟩ := hinv
    exact entsSorted_keys_nodup (WFNode_entsSorted hwf)

/-- Witness for C1: two inserts of key 1 (last value [20]) and one of key 2. -/
theorem C1_get_last_insert_witness :
    (2 ≤ 2 ∧ lastValue [(1, [10]), (1, [20]), (2, [30])] (1 : Nat) = some [20]) ∧
    ((runInserts (BPlus.new Nat 2 128) [(1, [10]), (1, [20]), (2, [30])]).get 1 =
        Except.ok [20] ∧
      (treeKeys (runInserts (BPlus.new Nat 2 128)
        [(1, [10]), (1, [20]), (2, [30])]).root).Nodup) :=
  ⟨⟨by decide, by decide⟩,
   C1_get_last_insert 2 128 (by decide) [(1, [10]), (1, [20]), (2, [30])] 1 [20]
     (by decide)⟩

/-- C2: after any sequence of inserts from a fresh tree (t ≥ 2), `get` of a
key never inserted returns the NotFound error; and on any tree whose root
routing selects a child index with no child link, `get` also answers
NotFound. -/
theorem C2_missing_key_notFound {K : Type} [LinearOrder K] [Inhabited K]
    (t maxF : Nat) (ht : 2 ≤ t) (ops : List (K × Bytes)) (k : K)
    (hk : k ∉ ops.map Prod.fst) :
    (runInserts (BPlus.new K t maxF) ops).get k =
      Except.error GetError.notFound ∧
    (∀ (b : BPlus K) (ks : List K) (cs : List (Node K)) (key : K),
      b.root = Node.internal ks cs → cs.length ≤ routeIdx ks key →
      b.get key = Except.error GetError.notFound) := by
  constructor
  · have hbase := Inv_new K t maxF
    have hbt : 2 ≤ (BPlus.new K t maxF).t := ht
    obtain ⟨hget, _, _⟩ := runInserts_sound ops (BPlus.new K t maxF) hbt hbase
    rw [hget k, lastValue_none_of_not_mem hk]
    rfl
  · intro b ks cs key hroot hlen
    have h1 : getHandle b.root key = none := by
      rw [hroot]
      show getHandleAt cs (routeIdx ks key) key = none
      exact getHandleAt_none hlen
    simp [BPlus.get, h1]

/-- Witness for C2: key 7 was never inserted; and a corrupt root
`internal [5] []` routes key 9 to a missing child. -/
theorem C2_missing_key_notFound_witness :
    (2 ≤ 2 ∧ (7 : Nat) ∉ ([(1, [5])] : List (Nat × Bytes)).map Prod.fst) ∧
    (runInserts (BPlus.new Nat 2 128) [(1, [5])]).get 7 =
      Except.error GetError.notFound ∧
    (([] : List (Node Nat)).length ≤ routeIdx [5] 9 ∧
      (⟨Node.internal [5] [], 2, ⟨fun _ => [], 0, 0, 128⟩, 0⟩ : BPlus Nat).get 9 =
        Except.error GetError.notFound) :=
  ⟨⟨by decide, by decide⟩,
   (C2_missing_key_notFound 2 128 (by decide) [(1, [5])] 7 (by decide)).1,
   by decide,
   (C2_missing_key_notFound 2 128 (by decide) [(1, [5])] 7 (by decide)).2
     ⟨Node.internal [5] [], 2, ⟨fun _ => [], 0, 0, 128⟩, 0⟩ [5] [] 9 rfl (by decide)⟩

theorem entsGt_keys_chain {K : Type} [LinearOrder K] :
    ∀ {p : K} {hi : Option K} {es : List (K × ChunkHandler)},
      entsGt p hi es → (es.map Prod.fst).Chain' (· < ·) := by
  intro p hi es
  induction es generalizing p with
  | nil => intro _; simp
  | cons a rest ih =>
    obtain ⟨ak, aw⟩ := a
    intro h
    obtain ⟨h1, h2, h3⟩ := h
    have hrest := ih h3
    cases rest with
    | nil => simp
    | cons b rest' =>
      obtain ⟨bk, bw⟩ := b
      obtain ⟨g1, _, _⟩ := h3
      exact List.chain'_cons.mpr ⟨g1, hrest⟩

theorem entsSorted_keys_chain {K : Type} [LinearOrder K] {lo hi : Option K}
    {es : List (K × ChunkHandler)} (h : entsSorted lo hi es) :
    (es.map Prod.fst).Chain' (· < ·) := by
  cases es with
  | nil => simp
  | cons a rest =>
    obtain ⟨ak, aw⟩ := a
    obtain ⟨h1, h2, h3⟩ := h
    have hrest := entsGt_keys_chain h3
    cases rest with
    | nil => simp
    | cons b rest' =>
      obtain ⟨bk, bw⟩ := b
      obtain ⟨g1, _, _⟩ := h3
      exact List.chain'_cons.mpr ⟨g1, hrest⟩

theorem WFKids_sep_chain {K : Type} [LinearOrder K] {t : Nat} (ht : 2 ≤ t) :
    ∀ {lo hi : Option K} {d : Nat} {ks : List K} {cs : List (Node K)},
      WFKids t lo hi d ks cs → ks.Chain' (· < ·)
  | _, _, _, _, _, .single _ _ _ _ _ => by simp
  | _, _, _, _, _, .cons lo hi d k ks c cs hlo hhi hc hrest => by
    have hrc := WFKids_sep_chain ht hrest
    cases hrest with
    | single _ _ _ c1 hc1 => simp
    | cons _ _ _ k1 ks1 c1 cs1 hlo1 hhi1 hc1 hrest1 =>
      refine List.chain'_cons.mpr ⟨?_, hrc⟩
      obtain ⟨x, hx1, hx2⟩ := WFNode_keyWitness ht hc1
      exact lt_of_le_of_lt hx1 hx2

theorem WFKids_first_child_lower {K : Type} [LinearOrder K] {t : Nat} :
    ∀ {lo hi : Option K} {d : Nat} {ks : List K} {cs : List (Node K)},
      WFKids t lo hi d ks cs →
      ∀ y ∈ treeKeys (cs.getD 0 (junkNode K)), loLe lo y := by
  intro lo hi d ks cs h
  cases h with
  | single _ _ _ c hc =>
    intro y hy
    obtain ⟨p, hp, hpk⟩ := List.mem_map.mp hy
    have := (entsSorted_mem (WFNode_entsSorted hc) p hp).1
    rw [hpk] at this
    exact this
  | cons _ _ _ k ks' c cs' hlo hhi hc hrest =>
    intro y hy
    obtain ⟨p, hp, hpk⟩ := List.mem_map.mp hy
    have := (entsSorted_mem (WFNode_entsSorted hc) p hp).1
    rw [hpk] at this
    exact this

theorem WFKids_child_facts {K : Type} [LinearOrder K] [Inhabited K] {t : Nat} :
    ∀ {lo hi : Option K} {d : Nat} {ks : List K} {cs : List (Node K)},
      WFKids t lo hi d ks cs → ∀ i, i < ks.length →
      (∀ x ∈ treeKeys (cs.getD i (junkNode K)), x < ks.getD i default) ∧
      (∀ y ∈ treeKeys (cs.getD (i + 1) (junkNode K)), ks.getD i default ≤ y)
  | _, _, _, _, _, .single _ _ _ _ _, i, hi => by simp at hi
  | _, _, _, _, _, .cons lo hi d k ks c cs hlo hhi hc hrest, 0, hlt => by
    constructor
    · intro x hx
      obtain ⟨p, hp, hpk⟩ := List.mem_map.mp hx
      have := (entsSorted_mem (WFNode_entsSorted hc) p hp).2
      rw [hpk] at this
      exact this
    · intro y hy
      have hfc := WFKids_first_child_lower hrest
      exact hfc y hy
  | _, _, _, _, _, .cons lo hi d k ks c cs hlo hhi hc hrest, i + 1, hlt => by
    have hlt' : i < ks.length := by simpa using hlt
    have := WFKids_child_facts hrest i hlt'
    simpa using this

mutual

theorem WFNode_depths {K : Type} [LinearOrder K] {t : Nat} :
    ∀ {r : Bool} {lo hi : Option K} {d : Nat} {n : Node K},
      WFNode t r lo hi d n → ∀ x ∈ leafDepths n, x = d
  | _, _, _, _, _, .leaf _ _ _ _ _ _ _ _ _ => by
    intro x hx
    simp [leafDepths] at hx
    exact hx
  | _, _, _, _, _, .internal _ _ _ d ks cs _ _ hk => by
    intro x hx
    simp only [leafDepths, List.mem_map] at hx
    obtain ⟨y, hy, hyx⟩ := hx
    rw [← hyx, WFKids_depths hk y hy]

theorem WFKids_depths {K : Type} [LinearOrder K] {t : Nat} :
    ∀ {lo hi : Option K} {d : Nat} {ks : List K} {cs : List (Node K)},
      WFKids t lo hi d ks cs → ∀ x ∈ leafDepthsL cs, x = d
  | _, _, _, _, _, .single _ _ _ c hc => by
    intro x hx
    simp only [leafDepthsL, List.append_nil] at hx
    exact WFNode_depths hc x hx
  | _, _, _, _, _, .cons _ _ _ k ks c cs _ _ hc hrest => by
    intro x hx
    simp only [leafDepthsL, List.mem_append] at hx
    rcases hx with h | h
    · exact WFNode_depths hc x h
    · exact WFKids_depths hrest x h

end

mutual

theorem WFNode_nodes_facts {K : Type} [LinearOrder K] [Inhabited K] {t : Nat}
    (ht : 2 ≤ t) :
    ∀ {r : Bool} {lo hi : Option K} {d : Nat} {n : Node K},
      WFNode t r lo hi d n → ∀ m ∈ allNodes n, nodeKeysSorted m ∧ nodeSepsOk m
  | _, _, _, _, _, .leaf _ lo hi id es nx _ _ hs => by
    intro m hm
    simp only [allNodes, List.mem_singleton] at hm
    subst hm
    exact ⟨entsSorted_keys_chain hs, trivial⟩
  | _, _, _, _, _, .internal _ lo hi d ks cs _ _ hk => by
    intro m hm
    simp only [allNodes, List.mem_cons] at hm
    rcases hm with hm | hm
    · subst hm
      refine ⟨WFKids_sep_chain ht hk, WFKids_length hk, ?_⟩
      intro i hi
      exact WFKids_child_facts hk i hi
    · exact WFKids_nodes_facts ht hk m hm

theorem WFKids_nodes_facts {K : Type} [LinearOrder K] [Inhabited K] {t : Nat}
    (ht : 2 ≤ t) :
    ∀ {lo hi : Option K} {d : Nat} {ks : List K} {cs : List (Node K)},
      WFKids t lo hi d ks cs →
      ∀ m ∈ allNodesL cs, nodeKeysSorted m ∧ nodeSepsOk m
  | _, _, _, _, _, .single _ _ _ c hc => by
    intro m hm
    simp only [allNodesL, List.append_nil] at hm
    exact WFNode_nodes_facts ht hc m hm
  | _, _, _, _, _, .cons _ _ _ k ks c cs _ _ hc hrest => by
    intro m hm
    simp only [allNodesL, List.mem_append] at hm
    rcases hm with h | h
    · exact WFNode_nodes_facts ht hc m h
    · exact WFKids_nodes_facts ht hrest m h

end

mutual

theorem WFNode_bounds_facts {K : Type} [LinearOrder K] {t : Nat} :
    ∀ {lo hi : Option K} {d : Nat} {n : Node K},
      WFNode t false lo hi d n → ∀ m ∈ allNodes n, nodeBoundsOk t m
  | _, _, _, _, .leaf _ lo hi id es nx hlow hup hs => by
    intro m hm
    simp only [allNodes, List.mem_singleton] at hm
    subst hm
    refine ⟨?_, hup⟩
    simpa using hlow
  | _, _, _, _, .internal _ lo hi d ks cs hlow hup hk => by
    intro m hm
    simp only [allNodes, List.mem_cons] at hm
    rcases hm with hm | hm
    · subst hm
      refine ⟨by simpa using hlow, by omega⟩
    · exact WFKids_bounds_facts hk m hm

theorem WFKids_bounds_facts {K : Type} [LinearOrder K] {t : Nat} :
    ∀ {lo hi : Option K} {d : Nat} {ks : List K} {cs : List (Node K)},
      WFKids t lo hi d ks cs → ∀ m ∈ allNodesL cs, nodeBoundsOk t m
  | _, _, _, _, _, .single _ _ _ c hc => by
    intro m hm
    simp only [allNodesL, List.append_nil] at hm
    exact WFNode_bounds_facts hc m hm
  | _, _, _, _, _, .cons _ _ _ k ks c cs _ _ hc hrest => by
    intro m hm
    simp only [allNodesL, List.mem_append] at hm
    rcases hm with h | h
    · exact WFNode_bounds_facts hc m h
    · exact WFKids_bounds_facts hrest m h

end

theorem WFNode_strict_bounds {K : Type} [LinearOrder K] {t : Nat} {r : Bool}
    {lo hi : Option K} {d : Nat} {n : Node K} (h : WFNode t r lo hi d n) :
    ∀ m ∈ strictSubNodes n, nodeBoundsOk t m := by
  cases h with
  | leaf _ lo hi id es nx _ _ _ =>
    intro m hm
    simp [strictSubNodes] at hm
  | internal _ lo hi d ks cs _ _ hk =>
    intro m hm
    exact WFKids_bounds_facts hk m hm

/-- C4: after any sequence of inserts into a fresh tree with t ≥ 2, the
structural invariants hold: keys in every node are ascending and the tree's
key sequence is strictly ascending (no duplicates anywhere); every internal
node with n separators has exactly n+1 children with child i's keys below
separator i and separator i at most child i+1's keys; every non-root
internal node holds between t−1 and 2·t−1 keys and every non-root leaf
between t and 2·t−1 entries; all leaves sit at the same depth; and the leaf
identities form an acyclic, key-ordered singly linked chain whose last next
link is absent. -/
theorem C4_insert_invariants {K : Type} [LinearOrder K] [Inhabited K]
    (t maxF : Nat) (ht : 2 ≤ t) (ops : List (K × Bytes)) :
    SpecInvariants t (runInserts (BPlus.new K t maxF) ops).root := by
  have hbt : 2 ≤ (BPlus.new K t maxF).t := ht
  obtain ⟨_, hinv, hteq⟩ := runInserts_sound ops (BPlus.new K t maxF) hbt
    (Inv_new K t maxF)
  obtain ⟨hwf, _, _, hlink, hids⟩ := hinv
  have hteq' : (runInserts (BPlus.new K t maxF) ops).t = t := hteq
  rw [hteq'] at hwf
  obtain ⟨d, hwf⟩ := hwf
  refine ⟨WFNode_nodes_facts ht hwf, ?_, WFNode_strict_bounds hwf,
    ⟨d, WFNode_depths hwf⟩, hlink, hids.1⟩
  exact entsSorted_keys_chain (WFNode_entsSorted hwf)

/-- Witness for C4: four inserts into a `t = 2` tree (forcing a root
split). -/
theorem C4_insert_invariants_witness :
    2 ≤ 2 ∧ SpecInvariants 2 (runInserts (BPlus.new Nat 2 128)
      [(1, [1]), (2, [2]), (3, [3]), (4, [4])]).root :=
  ⟨by decide, C4_insert_invariants 2 128 (by decide)
    [(1, [1]), (2, [2]), (3, [3]), (4, [4])]⟩

mutual

theorem nodeFromS_getHandle {K : Type} [LinearOrder K] :
    ∀ (n : Node K) (ctr : Nat) (key : K),
      getHandle (nodeFromS (serializeNode n) ctr).1 key = getHandle n key
  | .leaf id es nx, ctr, key => rfl
  | .internal ks cs, ctr, key => by
    show getHandleAt (nodeFromSL (serializeNodeL cs) ctr).1 (routeIdx ks key) key =
      getHandleAt cs (routeIdx ks key) key
    exact nodeFromSL_getHandle cs ctr (routeIdx ks key) key

theorem nodeFromSL_getHandle {K : Type} [LinearOrder K] :
    ∀ (cs : List (Node K)) (ctr i : Nat) (key : K),
      getHandleAt (nodeFromSL (serializeNodeL cs) ctr).1 i key =
        getHandleAt cs i key
  | [], ctr, i, key => rfl
  | c :: cs, ctr, 0, key => by
    show getHandle (nodeFromS (serializeNode c) ctr).1 key = getHandle c key
    exact nodeFromS_getHandle c ctr key
  | c :: cs, ctr, i + 1, key => by
    show getHandleAt (nodeFromSL (serializeNodeL cs) _).1 i key =
      getHandleAt cs i key
    exact nodeFromSL_getHandle cs _ i key

end

mutual

theorem nodeFromS_entriesOf {K : Type} :
    ∀ (n : Node K) (ctr : Nat),
      entriesOf (nodeFromS (serializeNode n) ctr).1 = entriesOf n
  | .leaf id es nx, ctr => rfl
  | .internal ks cs, ctr => by
    show entriesOfL (nodeFromSL (serializeNodeL cs) ctr).1 = entriesOfL cs
    exact nodeFromSL_entriesOf cs ctr

theorem nodeFromSL_entriesOf {K : Type} :
    ∀ (cs : List (Node K)) (ctr : Nat),
      entriesOfL (nodeFromSL (serializeNodeL cs) ctr).1 = entriesOfL cs
  | [], ctr => rfl
  | c :: cs, ctr => by
    show entriesOf (nodeFromS (serializeNode c) ctr).1 ++
        entriesOfL (nodeFromSL (serializeNodeL cs) _).1 =
      entriesOf c ++ entriesOfL cs
    rw [nodeFromS_entriesOf c ctr, nodeFromSL_entriesOf cs _]

end

mutual

theorem nodeFromS_WF {K : Type} [LinearOrder K] {t : Nat} :
    ∀ {r : Bool} {lo hi : Option K} {d : Nat} {n : Node K},
      WFNode t r lo hi d n → ∀ ctr,
      WFNode t r lo hi d (nodeFromS (serializeNode n) ctr).1
  | _, _, _, _, _, .leaf r lo hi id es nx hlow hup hs, ctr =>
    WFNode.leaf r lo hi ctr es none hlow hup hs
  | _, _, _, _, _, .internal r lo hi d ks cs hlow hup hk, ctr => by
    show WFNode t r lo hi (d + 1)
      (Node.internal ks (nodeFromSL (serializeNodeL cs) ctr).1)
    exact WFNode.internal r lo hi d ks _ hlow hup (nodeFromSL_WF hk ctr)

theorem nodeFromSL_WF {K : Type} [LinearOrder K] {t : Nat} :
    ∀ {lo hi : Option K} {d : Nat} {ks : List K} {cs : List (Node K)},
      WFKids t lo hi d ks cs → ∀ ctr,
      WFKids t lo hi d ks (nodeFromSL (serializeNodeL cs) ctr).1
  | _, _, _, _, _, .single lo hi d c hc, ctr => by
    show WFKids t lo hi d [] ((nodeFromS (serializeNode c) ctr).1 ::
      (nodeFromSL (serializeNodeL []) _).1)
    exact WFKids.single lo hi d _ (nodeFromS_WF hc ctr)
  | _, _, _, _, _, .cons lo hi d k ks c cs hlo hhi hc hrest, ctr => by
    show WFKids t lo hi d (k :: ks) ((nodeFromS (serializeNode c) ctr).1 ::
      (nodeFromSL (serializeNodeL cs) _).1)
    exact WFKids.cons lo hi d k ks _ _ hlo hhi (nodeFromS_WF hc ctr)
      (nodeFromSL_WF hrest _)

end

mutual

theorem nodeFromS_chain {K : Type} :
    ∀ (s : SNode K) (ctr : Nat),
      (nodeFromS s ctr).2 = ctr + numLeaves s ∧
      leafChain (nodeFromS s ctr).1 =
        (List.range' ctr (numLeaves s)).map (fun i => (i, none))
  | .leaf es, ctr => by
    constructor
    · rfl
    · show ([(ctr, (none : Option Nat))]) = _
      simp [numLeaves]
  | .internal ks cs, ctr => by
    obtain ⟨h1, h2⟩ := nodeFromSL_chain cs ctr
    constructor
    · show (nodeFromSL cs ctr).2 = ctr + numLeaves (SNode.internal ks cs)
      rw [h1]
      rfl
    · show leafChainL (nodeFromSL cs ctr).1 = _
      rw [h2]
      rfl

theorem nodeFromSL_chain {K : Type} :
    ∀ (ss : List (SNode K)) (ctr : Nat),
      (nodeFromSL ss ctr).2 = ctr + numLeavesL ss ∧
      leafChainL (nodeFromSL ss ctr).1 =
        (List.range' ctr (numLeavesL ss)).map (fun i => (i, none))
  | [], ctr => by
    constructor
    · rfl
    · show ([] : List (Nat × Option Nat)) = _
      simp [numLeavesL]
  | s :: ss, ctr => by
    obtain ⟨h1, h2⟩ := nodeFromS_chain s ctr
    obtain ⟨h3, h4⟩ := nodeFromSL_chain ss (nodeFromS s ctr).2
    constructor
    · show (nodeFromSL ss (nodeFromS s ctr).2).2 = ctr + numLeavesL (s :: ss)
      rw [h3, h1]
      show ctr + numLeaves s + numLeavesL ss = ctr + (numLeaves s + numLeavesL ss)
      omega
    · show leafChain (nodeFromS s ctr).1 ++
        leafChainL (nodeFromSL ss (nodeFromS s ctr).2).1 = _
      rw [h2, h4, h1]
      show _ = (List.range' ctr (numLeaves s + numLeavesL ss)).map _
      rw [← List.map_append]
      congr 1
      rw [Nat.add_comm (numLeaves s) (numLeavesL ss)]
      exact List.range'_append_1 ctr (numLeaves s) (numLeavesL ss)

end

mutual

theorem applyNexts_getHandle {K : Type} [LinearOrder K] :
    ∀ (a : List (Nat × Nat)) (n : Node K) (key : K),
      getHandle (applyNexts a n) key = getHandle n key
  | a, .leaf id es nx, key => by
    cases h : lookupAssign a id <;> simp [applyNexts, h, getHandle]
  | a, .internal ks cs, key => by
    show getHandleAt (applyNextsL a cs) (routeIdx ks key) key =
      getHandleAt cs (routeIdx ks key) key
    exact applyNextsL_getHandle a cs (routeIdx ks key) key

theorem applyNextsL_getHandle {K : Type} [LinearOrder K] :
    ∀ (a : List (Nat × Nat)) (cs : List (Node K)) (i : Nat) (key : K),
      getHandleAt (applyNextsL a cs) i key = getHandleAt cs i key
  | a, [], i, key => rfl
  | a, c :: cs, 0, key => applyNexts_getHandle a c key
  | a, c :: cs, i + 1, key => applyNextsL_getHandle a cs i key

end

mutual

theorem applyNexts_entriesOf {K : Type} :
    ∀ (a : List (Nat × Nat)) (n : Node K),
      entriesOf (applyNexts a n) = entriesOf n
  | a, .leaf id es nx => by
    cases h : lookupAssign a id <;> simp [applyNexts, h, entriesOf]
  | a, .internal ks cs => by
    show entriesOfL (applyNextsL a cs) = entriesOfL cs
    exact applyNextsL_entriesOf a cs

theorem applyNextsL_entriesOf {K : Type} :
    ∀ (a : List (Nat × Nat)) (cs : List (Node K)),
      entriesOfL (applyNextsL a cs) = entriesOfL cs
  | a, [] => rfl
  | a, c :: cs => by
    show entriesOf (applyNexts a c) ++ entriesOfL (applyNextsL a cs) = _
    rw [applyNexts_entriesOf a c, applyNextsL_entriesOf a cs]
    rfl

end

mutual

theorem applyNexts_leafChain {K : Type} :
    ∀ (a : List (Nat × Nat)) (n : Node K),
      leafChain (applyNexts a n) = (leafChain n).map
        (fun p => (p.1, match lookupAssign a p.1 with
          | some j => some j
          | none => p.2))
  | a, .leaf id es nx => by
    cases h : lookupAssign a id <;> simp [applyNexts, h, leafChain]
  | a, .internal ks cs => by
    show leafChainL (applyNextsL a cs) = (leafChainL cs).map _
    exact applyNextsL_leafChain a cs

theorem applyNextsL_leafChain {K : Type} :
    ∀ (a : List (Nat × Nat)) (cs : List (Node K)),
      leafChainL (applyNextsL a cs) = (leafChainL cs).map
        (fun p => (p.1, match lookupAssign a p.1 with
          | some j => some j
          | none => p.2))
  | a, [] => rfl
  | a, c :: cs => by
    show leafChain (applyNexts a c) ++ leafChainL (applyNextsL a cs) = _
    rw [applyNexts_leafChain a c, applyNextsL_leafChain a cs]
    show _ = List.map _ (leafChain c ++ leafChainL cs)
    rw [List.map_append]

end

mutual

theorem leaves_ids {K : Type} :
    ∀ (n : Node K), (leaves n).map leafId = (leafChain n).map Prod.fst
  | .leaf id es nx => rfl
  | .internal ks cs => leavesL_ids cs

theorem leavesL_ids {K : Type} :
    ∀ (cs : List (Node K)), (leavesL cs).map leafId = (leafChainL cs).map Prod.fst
  | [] => rfl
  | c :: cs => by
    show (leaves c ++ leavesL cs).map leafId = (leafChain c ++ leafChainL cs).map _
    rw [List.map_append, List.map_append, leaves_ids c, leavesL_ids cs]

end

theorem leavesL_append {K : Type} (a b : List (Node K)) :
    leavesL (a ++ b) = leavesL a ++ leavesL b := by
  induction a with
  | nil => rfl
  | cons c cs ih => simp [leavesL, ih]

theorem szL_append {K : Type} (a b : List (Node K)) :
    Node.szL (a ++ b) = Node.szL a + Node.szL b := by
  induction a with
  | nil => simp [Node.szL]
  | cons c cs ih => simp [Node.szL, ih]; omega

theorem collectLeaves_perm {K : Type} :
    ∀ (q : List (Node K)), List.Perm (collectLeaves q) (leavesL q)
  | [] => by
    simp only [collectLeaves]
    exact List.Perm.refl _
  | .leaf id es nx :: rest => by
    simp only [collectLeaves]
    exact List.Perm.cons _ (collectLeaves_perm rest)
  | .internal ks cs :: rest => by
    simp only [collectLeaves]
    have ih := collectLeaves_perm (rest ++ cs)
    rw [leavesL_append] at ih
    refine ih.trans ?_
    have h2 : leavesL (Node.internal ks cs :: rest) = leavesL cs ++ leavesL rest := by
      simp [leavesL, leaves]
    rw [h2]
    exact List.perm_append_comm
termination_by q => Node.szL q
decreasing_by
  · simp [Node.szL, Node.sz]
  · simp only [Node.szL, Node.sz, szL_append]
    omega

theorem mem_of_getLast? {α : Type} {l : List α} {a : α} (h : a ∈ l.getLast?) :
    a ∈ l := by
  obtain ⟨hne, rfl⟩ := List.mem_getLast?_eq_getLast h
  exact List.getLast_mem hne

mutual

theorem WFNode_leaves_keys {K : Type} [LinearOrder K] [Inhabited K] {t : Nat}
    (ht : 2 ≤ t) :
    ∀ {lo hi : Option K} {d : Nat} {n : Node K}, WFNode t false lo hi d n →
      ((leaves n).map leafFirstKey).Chain' (· < ·) ∧
      ∀ x ∈ (leaves n).map leafFirstKey, loLe lo x ∧ ltHi hi x
  | _, _, _, _, .leaf _ lo hi id es nx hlow hup hs => by
    have hlen : t ≤ es.length := hlow
    cases es with
    | nil =>
      simp only [List.length_nil] at hlen
      exact absurd (le_trans ht hlen) (by omega)
    | cons e es' =>
      obtain ⟨ek, ew⟩ := e
      have hs' : loLe lo ek ∧ ltHi hi ek ∧ entsGt ek hi es' := hs
      constructor
      · simp [leaves]
      · intro x hx
        simp only [leaves, List.map_cons, List.map_nil, List.mem_singleton] at hx
        subst hx
        exact ⟨hs'.1, hs'.2.1⟩
  | _, _, _, _, .internal _ lo hi d ks cs hlow hup hk => by
    show ((leavesL cs).map leafFirstKey).Chain' (· < ·) ∧ _
    exact WFKids_leaves_keys ht hk

theorem WFKids_leaves_keys {K : Type} [LinearOrder K] [Inhabited K] {t : Nat}
    (ht : 2 ≤ t) :
    ∀ {lo hi : Option K} {d : Nat} {ks : List K} {cs : List (Node K)},
      WFKids t lo hi d ks cs →
      ((leavesL cs).map leafFirstKey).Chain' (· < ·) ∧
      ∀ x ∈ (leavesL cs).map leafFirstKey, loLe lo x ∧ ltHi hi x
  | _, _, _, _, _, .single lo hi d c hc => by
    have h := WFNode_leaves_keys ht hc
    constructor
    · simpa [leavesL] using h.1
    · intro x hx
      simp only [leavesL, List.append_nil] at hx
      exact h.2 x hx
  | _, _, _, _, _, .cons lo hi d k ks c cs hlo hhi hc hrest => by
    have hA := WFNode_leaves_keys ht hc
    have hB := WFKids_leaves_keys ht hrest
    have hmap : (leavesL (c :: cs)).map leafFirstKey =
        (leaves c).map leafFirstKey ++ (leavesL cs).map leafFirstKey := by
      show (leaves c ++ leavesL cs).map leafFirstKey = _
      rw [List.map_append]
    constructor
    · rw [hmap]
      refine List.Chain'.append hA.1 hB.1 ?_
      intro x hx y hy
      have hxm := hA.2 x (mem_of_getLast? hx)
      have hym := hB.2 y (List.mem_of_mem_head? hy)
      have h1 : x < k := hxm.2
      have h2 : k ≤ y := hym.1
      exact lt_of_lt_of_le h1 h2
    · intro x hx
      rw [hmap] at hx
      rcases List.mem_append.mp hx with h | h
      · obtain ⟨g1, g2⟩ := hA.2 x h
        exact ⟨g1, ltHi_of_le hhi (le_of_lt g2)⟩
      · obtain ⟨g1, g2⟩ := hB.2 x h
        exact ⟨loLe_of_le hlo g1, g2⟩

end

theorem TreeWF_leaves_keys {K : Type} [LinearOrder K] [Inhabited K] {t : Nat}
    (ht : 2 ≤ t) {d : Nat} {n : Node K} (h : WFNode t true none none d n) :
    ((leaves n).map leafFirstKey).Chain' (· < ·) :=
  match h with
  | .leaf _ _ _ id es nx _ _ _ => by simp [leaves]
  | .internal _ _ _ d' ks cs _ _ hk => (WFKids_leaves_keys ht hk).1

theorem perm_pairwise_chain_eq {α K : Type} [LinearOrder K] (f : α → K) :
    ∀ (l1 l2 : List α), List.Perm l1 l2 →
      l1.Pairwise (fun a b => f a ≤ f b) →
      (l2.map f).Chain' (· < ·) → l1 = l2
  | [], l2, hperm, _, _ => hperm.nil_eq
  | x :: l1', l2, hperm, hpw, hch => by
    cases l2 with
    | nil => exact absurd hperm.symm.nil_eq (by simp)
    | cons y l2' =>
      have hpw2 : ((y :: l2').map f).Pairwise (· < ·) := by
        have := hch
        rw [List.chain'_iff_pairwise] at this
        exact this
      have hxy : x = y := by
        by_contra hne
        have hx2 : x ∈ y :: l2' := hperm.mem_iff.mp (by simp)
        have hy1 : y ∈ x :: l1' := hperm.symm.mem_iff.mp (by simp)
        have hxl2 : x ∈ l2' := by
          rcases List.mem_cons.mp hx2 with h | h
          · exact absurd h hne
          · exact h
        have hyl1 : y ∈ l1' := by
          rcases List.mem_cons.mp hy1 with h | h
          · exact absurd h.symm hne
          · exact h
        have h1 : f y < f x := by
          have := List.pairwise_cons.mp hpw2
          exact this.1 (f x) (List.mem_map.mpr ⟨x, hxl2, rfl⟩)
        have h2 : f x ≤ f y := (List.pairwise_cons.mp hpw).1 y hyl1
        exact absurd h1 (not_lt_of_ge h2)
      subst hxy
      have hperm' : List.Perm l1' l2' := (List.perm_cons x).mp hperm
      have hpw' : l1'.Pairwise (fun a b => f a ≤ f b) :=
        (List.pairwise_cons.mp hpw).2
      have hch' : (l2'.map f).Chain' (· < ·) := by
        have := hch
        rw [List.map_cons] at this
        exact this.tail
      rw [perm_pairwise_chain_eq f l1' l2' hperm' hpw' hch']

theorem lookupAssign_zip_range :
    ∀ (cnt start i : Nat),
      lookupAssign ((List.range' start cnt).zip (List.range' start cnt).tail) i =
      if start ≤ i ∧ i + 1 < start + cnt then some (i + 1) else none
  | 0, start, i => by
    simp only [List.range'_zero, List.zip_nil_left, lookupAssign]
    rw [if_neg (by omega)]
  | 1, start, i => by
    simp only [List.range'_one, List.tail_cons, List.zip_nil_right, lookupAssign]
    rw [if_neg (by omega)]
  | n + 2, start, i => by
    have h1 : List.range' start (n + 2) = start :: List.range' (start + 1) (n + 1) :=
      List.range'_succ start (n + 1) 1
    have h2 : List.range' (start + 1) (n + 1) =
        (start + 1) :: List.range' (start + 2) n := List.range'_succ (start + 1) n 1
    have hzip : (List.range' start (n + 2)).zip (List.range' start (n + 2)).tail =
        (start, start + 1) ::
        (List.range' (start + 1) (n + 1)).zip (List.range' (start + 1) (n + 1)).tail := by
      rw [h1]
      show (start :: List.range' (start + 1) (n + 1)).zip
        (List.range' (start + 1) (n + 1)) = _
      conv_lhs => rw [h2]
      rw [h2]
      rfl
    rw [hzip]
    simp only [lookupAssign]
    by_cases hi : i = start
    · subst hi
      rw [if_pos rfl, if_pos (by omega)]
    · rw [if_neg hi, lookupAssign_zip_range (n + 1) (start + 1) i]
      by_cases hc : start + 1 ≤ i ∧ i + 1 < start + 1 + (n + 1)
      · rw [if_pos hc, if_pos (by omega)]
      · rw [if_neg hc, if_neg (by omega)]

theorem linkedChain_range :
    ∀ (cnt start : Nat),
      linkedChain ((List.range' start cnt).map
        (fun i => (i, if i + 1 < start + cnt then some (i + 1) else none)))
  | 0, start => trivial
  | 1, start => by
    simp only [List.range'_one, List.map_cons, List.map_nil]
    show (if start + 1 < start + 1 then some (start + 1) else none) = none
    rw [if_neg (by omega)]
  | n + 2, start => by
    have h1 : List.range' start (n + 2) = start :: List.range' (start + 1) (n + 1) :=
      List.range'_succ start (n + 1) 1
    have h2 : List.range' (start + 1) (n + 1) =
        (start + 1) :: List.range' (start + 2) n := List.range'_succ (start + 1) n 1
    rw [h1, h2]
    have ih := linkedChain_range (n + 1) (start + 1)
    rw [h2] at ih
    refine ⟨?_, ?_⟩
    · rw [if_pos (by omega)]
    · have heq : ((start + 1) :: List.range' (start + 2) n).map
          (fun i => (i, if i + 1 < start + 1 + (n + 1) then some (i + 1) else none)) =
          ((start + 1) :: List.range' (start + 2) n).map
          (fun i => (i, if i + 1 < start + (n + 2) then some (i + 1) else none)) := by
        refine List.map_congr_left ?_
        intro i hi
        have hiff : (i + 1 < start + 1 + (n + 1)) ↔ (i + 1 < start + (n + 2)) := by
          omega
        exact congrArg (fun o => ((i : Nat), o)) (if_congr hiff rfl rfl)
      rw [← heq]
      exact ih

mutual

theorem applyNexts_leaves {K : Type} [Inhabited K] :
    ∀ (a : List (Nat × Nat)) (n : Node K),
      (leaves (applyNexts a n)).map leafFirstKey = (leaves n).map leafFirstKey
  | a, .leaf id es nx => by
    cases h : lookupAssign a id <;> simp [applyNexts, h, leaves, leafFirstKey]
  | a, .internal ks cs => by
    show (leavesL (applyNextsL a cs)).map leafFirstKey = _
    exact applyNextsL_leaves a cs

theorem applyNextsL_leaves {K : Type} [Inhabited K] :
    ∀ (a : List (Nat × Nat)) (cs : List (Node K)),
      (leavesL (applyNextsL a cs)).map leafFirstKey = (leavesL cs).map leafFirstKey
  | a, [] => rfl
  | a, c :: cs => by
    show (leaves (applyNexts a c) ++ leavesL (applyNextsL a cs)).map leafFirstKey =
      (leaves c ++ leavesL cs).map leafFirstKey
    rw [List.map_append, List.map_append, applyNexts_leaves a c,
      applyNextsL_leaves a cs]

end

theorem load_save_store {K : Type} [LinearOrder K] [Inhabited K] (b : BPlus K) :
    (BPlus.load (BPlus.save b) b.store.segments).store = b.store := by
  simp only [BPlus.load, BPlus.save, rebuildLinks]
  split
  · rfl
  · rfl

theorem load_save_getHandle {K : Type} [LinearOrder K] [Inhabited K]
    (b : BPlus K) (k : K) :
    getHandle (BPlus.load (BPlus.save b) b.store.segments).root k =
      getHandle b.root k := by
  simp only [BPlus.load, BPlus.save, rebuildLinks]
  split
  · exact nodeFromS_getHandle b.root 0 k
  · show getHandle (applyNexts _ (nodeFromS (serializeNode b.root) 0).1) k =
      getHandle b.root k
    rw [applyNexts_getHandle]
    exact nodeFromS_getHandle b.root 0 k

theorem load_save_get {K : Type} [LinearOrder K] [Inhabited K] (b : BPlus K)
    (k : K) :
    (BPlus.load (BPlus.save b) b.store.segments).get k = b.get k := by
  unfold BPlus.get
  rw [load_save_getHandle, load_save_store]

theorem load_save_root_skip {K : Type} [LinearOrder K] [Inhabited K]
    (b : BPlus K) (h : b.store.offset = 0 ∧ b.store.fileNumber = 0) :
    (BPlus.load (BPlus.save b) b.store.segments).root =
      (nodeFromS (serializeNode b.root) 0).1 := by
  simp only [BPlus.load, BPlus.save, rebuildLinks]
  rw [if_pos h]

theorem load_save_root_relink {K : Type} [LinearOrder K] [Inhabited K]
    (b : BPlus K) (h : ¬ (b.store.offset = 0 ∧ b.store.fileNumber = 0)) :
    (BPlus.load (BPlus.save b) b.store.segments).root =
      applyNexts
        ((((collectLeaves [(nodeFromS (serializeNode b.root) 0).1]).mergeSort
            (fun a c => decide (leafFirstKey a ≤ leafFirstKey c))).map leafId).zip
          (((collectLeaves [(nodeFromS (serializeNode b.root) 0).1]).mergeSort
            (fun a c => decide (leafFirstKey a ≤ leafFirstKey c))).map leafId).tail)
        (nodeFromS (serializeNode b.root) 0).1 := by
  simp only [BPlus.load, BPlus.save, rebuildLinks]
  rw [if_neg h]

theorem relinked_chain {K : Type} [LinearOrder K] [Inhabited K] {t d : Nat}
    (ht : 2 ≤ t) (s : SNode K)
    (hwf : WFNode t true none none d (nodeFromS s 0).1) :
    (collectLeaves [(nodeFromS s 0).1]).mergeSort
        (fun a c => decide (leafFirstKey a ≤ leafFirstKey c)) =
      leaves (nodeFromS s 0).1 ∧
    (leaves (nodeFromS s 0).1).map leafId = List.range' 0 (numLeaves s) ∧
    leafChain (applyNexts
        ((List.range' 0 (numLeaves s)).zip (List.range' 0 (numLeaves s)).tail)
        (nodeFromS s 0).1) =
      (List.range' 0 (numLeaves s)).map
        (fun i => (i, if i + 1 < numLeaves s then some (i + 1) else none)) ∧
    linkedChain ((List.range' 0 (numLeaves s)).map
        (fun i => (i, if i + 1 < numLeaves s then some (i + 1) else none))) ∧
    (((List.range' 0 (numLeaves s)).map
        (fun i => (i, if i + 1 < numLeaves s then some (i + 1) else none))).map
      Prod.fst).Nodup := by
  have hkeys : ((leaves (nodeFromS s 0).1).map leafFirstKey).Chain' (· < ·) :=
    TreeWF_leaves_keys ht hwf
  have hl : leavesL [(nodeFromS s 0).1] = leaves (nodeFromS s 0).1 := by
    show leaves (nodeFromS s 0).1 ++ ([] : List (Node K)) = leaves (nodeFromS s 0).1
    exact List.append_nil _
  have hperm : List.Perm ((collectLeaves [(nodeFromS s 0).1]).mergeSort
      (fun a c => decide (leafFirstKey a ≤ leafFirstKey c)))
      (leaves (nodeFromS s 0).1) := by
    refine (List.mergeSort_perm _ _).trans ?_
    rw [← hl]
    exact collectLeaves_perm _
  have htrans : ∀ (a c e : Node K),
      decide (leafFirstKey a ≤ leafFirstKey c) →
      decide (leafFirstKey c ≤ leafFirstKey e) →
      decide (leafFirstKey a ≤ leafFirstKey e) := by
    intro a c e h1 h2
    simp only [decide_eq_true_eq] at h1 h2 ⊢
    exact le_trans h1 h2
  have htotal : ∀ (a c : Node K),
      decide (leafFirstKey a ≤ leafFirstKey c) ||
        decide (leafFirstKey c ≤ leafFirstKey a) := by
    intro a c
    simp only [Bool.or_eq_true, decide_eq_true_eq]
    exact le_total _ _
  have hpw0 := List.sorted_mergeSort htrans htotal (collectLeaves [(nodeFromS s 0).1])
  have hpw : ((collectLeaves [(nodeFromS s 0).1]).mergeSort
      (fun a c => decide (leafFirstKey a ≤ leafFirstKey c))).Pairwise
      (fun a c => leafFirstKey a ≤ leafFirstKey c) :=
    hpw0.imp (fun h => of_decide_eq_true h)
  have hsrt := perm_pairwise_chain_eq leafFirstKey _ _ hperm hpw hkeys
  have hids : (leaves (nodeFromS s 0).1).map leafId = List.range' 0 (numLeaves s) := by
    rw [leaves_ids, (nodeFromS_chain s 0).2, List.map_map]
    have hcomp : (Prod.fst ∘ fun i => ((i : Nat), (none : Option Nat))) = id := rfl
    rw [hcomp, List.map_id]
  have hchain : leafChain (applyNexts
      ((List.range' 0 (numLeaves s)).zip (List.range' 0 (numLeaves s)).tail)
      (nodeFromS s 0).1) =
      (List.range' 0 (numLeaves s)).map
        (fun i => (i, if i + 1 < numLeaves s then some (i + 1) else none)) := by
    rw [applyNexts_leafChain, (nodeFromS_chain s 0).2, List.map_map]
    refine List.map_congr_left ?_
    intro i hi
    simp only [Function.comp_apply]
    rw [lookupAssign_zip_range]
    by_cases hlt : i + 1 < numLeaves s
    · rw [if_pos (by omega), if_pos hlt]
    · rw [if_neg (by omega), if_neg hlt]
  have hlc : linkedChain ((List.range' 0 (numLeaves s)).map
      (fun i => (i, if i + 1 < numLeaves s then some (i + 1) else none))) := by
    have h0 := linkedChain_range (numLeaves s) 0
    have hnorm : (List.range' 0 (numLeaves s)).map
        (fun i => (i, if i + 1 < 0 + numLeaves s then some (i + 1) else none)) =
        (List.range' 0 (numLeaves s)).map
        (fun i => (i, if i + 1 < numLeaves s then some (i + 1) else none)) := by
      refine List.map_congr_left ?_
      intro i hi
      have hiff : (i + 1 < 0 + numLeaves s) ↔ (i + 1 < numLeaves s) := by omega
      exact congrArg (fun o => ((i : Nat), o)) (if_congr hiff rfl rfl)
    rw [hnorm] at h0
    exact h0
  have hnd : (((List.range' 0 (numLeaves s)).map
      (fun i => (i, if i + 1 < numLeaves s then some (i + 1) else none))).map
      Prod.fst).Nodup := by
    rw [List.map_map]
    have hcomp : (Prod.fst ∘ fun i => ((i : Nat),
        if i + 1 < numLeaves s then some (i + 1) else none)) = id := rfl
    rw [hcomp, List.map_id]
    exact List.nodup_range' 0 (numLeaves s)
  exact ⟨hsrt, hids, hchain, hlc, hnd⟩

set_option maxHeartbeats 1000000

/-- C5: for every tree built by a sequence of inserts (`t ≥ 2`), saving and
loading back (over the same segment files) yields a tree answering `get`
identically for every key.  The load deserializes the root (leaves
renumbered 0..n−1 in tree order, all next links absent) and rebuilds the
leaf chain: when the stored offset and segment index are both 0 the rebuild
is skipped entirely and the root stays as deserialized; otherwise the
collected leaves sorted by first entry key are exactly the leaves in tree
order (ids 0..n−1 in order), and the relink makes leaf i point to leaf
i+1 (last link absent), an acyclic linked chain, with leaf first keys
strictly ascending along it. -/
theorem C5_save_load_roundtrip {K : Type} [LinearOrder K] [Inhabited K]
    (t maxF : Nat) (ht : 2 ≤ t) (ops : List (K × Bytes)) (b : BPlus K)
    (hb : b = runInserts (BPlus.new K t maxF) ops) :
    (∀ k, (BPlus.load (BPlus.save b) b.store.segments).get k = b.get k) ∧
    (b.store.offset = 0 ∧ b.store.fileNumber = 0 →
      (BPlus.load (BPlus.save b) b.store.segments).root =
        (nodeFromS (serializeNode b.root) 0).1) ∧
    (¬ (b.store.offset = 0 ∧ b.store.fileNumber = 0) →
      (collectLeaves [(nodeFromS (serializeNode b.root) 0).1]).mergeSort
          (fun a c => decide (leafFirstKey a ≤ leafFirstKey c)) =
        leaves (nodeFromS (serializeNode b.root) 0).1 ∧
      (leaves (nodeFromS (serializeNode b.root) 0).1).map leafId =
        List.range' 0 (numLeaves (serializeNode b.root)) ∧
      leafChain (BPlus.load (BPlus.save b) b.store.segments).root =
        (List.range' 0 (numLeaves (serializeNode b.root))).map
          (fun i => (i, if i + 1 < numLeaves (serializeNode b.root)
            then some (i + 1) else none)) ∧
      linkedChain (leafChain (BPlus.load (BPlus.save b) b.store.segments).root) ∧
      ((leafChain (BPlus.load (BPlus.save b) b.store.segments).root).map
        Prod.fst).Nodup ∧
      ((leaves (BPlus.load (BPlus.save b) b.store.segments).root).map
        leafFirstKey).Chain' (· < ·)) := by
  obtain ⟨-, hinv, hteq⟩ := runInserts_sound ops (BPlus.new K t maxF) ht
    (Inv_new K t maxF)
  rw [← hb] at hinv hteq
  obtain ⟨⟨d, hwf⟩, -, -, -, -⟩ := hinv
  have hteq' : b.t = t := hteq
  rw [hteq'] at hwf
  have hwf1 : WFNode t true none none d (nodeFromS (serializeNode b.root) 0).1 :=
    nodeFromS_WF hwf 0
  obtain ⟨hsrt, hids, hchain, hlc, hnd⟩ := relinked_chain ht (serializeNode b.root) hwf1
  refine ⟨fun k => load_save_get b k, fun h => load_save_root_skip b h, fun h => ?_⟩
  have hroot := load_save_root_relink b h
  rw [hsrt, hids] at hroot
  refine ⟨hsrt, hids, ?_, ?_, ?_, ?_⟩
  · rw [hroot]
    exact hchain
  · rw [hroot, hchain]
    exact hlc
  · rw [hroot, hchain]
    exact hnd
  · rw [hroot, applyNexts_leaves]
    exact TreeWF_leaves_keys ht hwf1

/-- Witness for C5: four inserts into a `t = 2` tree (root split, two
leaves), saved and loaded back. -/
theorem C5_save_load_roundtrip_witness :
    (2 ≤ 2 ∧
      runInserts (BPlus.new Nat 2 128) [(1, [1]), (2, [2]), (3, [3]), (4, [4])] =
        runInserts (BPlus.new Nat 2 128) [(1, [1]), (2, [2]), (3, [3]), (4, [4])]) ∧
    (∀ k, (BPlus.load (BPlus.save (runInserts (BPlus.new Nat 2 128)
          [(1, [1]), (2, [2]), (3, [3]), (4, [4])]))
        (runInserts (BPlus.new Nat 2 128)
          [(1, [1]), (2, [2]), (3, [3]), (4, [4])]).store.segments).get k =
      (runInserts (BPlus.new Nat 2 128)
        [(1, [1]), (2, [2]), (3, [3]), (4, [4])]).get k) :=
  ⟨⟨by decide, rfl⟩,
   (C5_save_load_roundtrip 2 128 (by decide) [(1, [1]), (2, [2]), (3, [3]), (4, [4])]
     (runInserts (BPlus.new Nat 2 128) [(1, [1]), (2, [2]), (3, [3]), (4, [4])])
     rfl).1⟩

end BPlusVerify
